import Mathlib

/-!
Verification of the network-coding-simulation repository: a shallow
embedding, in Lean 4, of the GF(2^8) arithmetic (src/model/galois-field.h),
the RLNC encoder (src/model/network-coding-encoder.cc) and the RLNC decoder
(src/model/network-coding-decoder.cc), together with theorems settling the
frozen claims about them.

Bytes are modelled as Nat values below 256, byte vectors as List Nat, and
the C++ classes as structures with explicit state passing.  Randomness
(the coefficient draws of GenerateCodedPacket) is passed in as an explicit
stream.  All definitions are executable.
-/

set_option maxRecDepth 100000

namespace ns3

/-! ## GaloisField (src/model/galois-field.h)

The table construction of GaloisField::InitTables: the exp table is filled
by repeated multiplication by the primitive element modulo the primitive
polynomial 0x11d, the log table by inverse lookup, and the exp table is
then extended so that indices up to 509 wrap around (indices 510 and 511
keep their initial value 0, exactly as in the C++ vector of size 512). -/

def FIELD_SIZE : Nat := 256

/-- One step x := x << 1; if (x & 0x100) x = (x ^ 0x11d) & 0xff of
GaloisField::InitTables. -/
def gfStep (x : Nat) : Nat :=
  let y := x <<< 1
  if y &&& 0x100 ≠ 0 then (y ^^^ 0x11d) &&& 0xff else y

/-- GaloisField::InitTables: returns (m_expTable, m_logTable).  The first
loop fills exp[i] and log[x] for i = 0..254 starting from x = 1; then
log[0] is set to 0; then exp[i] for i = 255..509 copies exp[i-255]. -/
def gfTables : List Nat × List Nat :=
  let s0 : List Nat × List Nat × Nat :=
    (List.replicate (2 * FIELD_SIZE) 0, List.replicate FIELD_SIZE 0, 1)
  let s1 := (List.range (FIELD_SIZE - 1)).foldl
    (fun s i =>
      let e := s.1
      let l := s.2.1
      let x := s.2.2
      (e.set i x, l.set x i, gfStep x)) s0
  let expT := s1.1
  let logT := (s1.2.1).set 0 0
  let expT := (List.range (FIELD_SIZE - 1)).foldl
    (fun e k => e.set (FIELD_SIZE - 1 + k) (e.getD k 0)) expT
  (expT, logT)

/-- The m_expTable member. -/
def expTab : List Nat := gfTables.1

/-- The m_logTable member. -/
def logTab : List Nat := gfTables.2

/-- The exp table as a literal list (proved equal to expTab below). -/
def expTabLit : List Nat := [1, 2, 4, 8, 16, 32, 64, 128, 29, 58, 116, 232, 205, 135, 19, 38, 76, 152, 45, 90, 180, 117, 234, 201, 143, 3, 6, 12, 24, 48, 96, 192, 157, 39, 78, 156, 37, 74, 148, 53, 106, 212, 181, 119, 238, 193, 159, 35, 70, 140, 5, 10, 20, 40, 80, 160, 93, 186, 105, 210, 185, 111, 222, 161, 95, 190, 97, 194, 153, 47, 94, 188, 101, 202, 137, 15, 30, 60, 120, 240, 253, 231, 211, 187, 107, 214, 177, 127, 254, 225, 223, 163, 91, 182, 113, 226, 217, 175, 67, 134, 17, 34, 68, 136, 13, 26, 52, 104, 208, 189, 103, 206, 129, 31, 62, 124, 248, 237, 199, 147, 59, 118, 236, 197, 151, 51, 102, 204, 133, 23, 46, 92, 184, 109, 218, 169, 79, 158, 33, 66, 132, 21, 42, 84, 168, 77, 154, 41, 82, 164, 85, 170, 73, 146, 57, 114, 228, 213, 183, 115, 230, 209, 191, 99, 198, 145, 63, 126, 252, 229, 215, 179, 123, 246, 241, 255, 227, 219, 171, 75, 150, 49, 98, 196, 149, 55, 110, 220, 165, 87, 174, 65, 130, 25, 50, 100, 200, 141, 7, 14, 28, 56, 112, 224, 221, 167, 83, 166, 81, 162, 89, 178, 121, 242, 249, 239, 195, 155, 43, 86, 172, 69, 138, 9, 18, 36, 72, 144, 61, 122, 244, 245, 247, 243, 251, 235, 203, 139, 11, 22, 44, 88, 176, 125, 250, 233, 207, 131, 27, 54, 108, 216, 173, 71, 142, 1, 2, 4, 8, 16, 32, 64, 128, 29, 58, 116, 232, 205, 135, 19, 38, 76, 152, 45, 90, 180, 117, 234, 201, 143, 3, 6, 12, 24, 48, 96, 192, 157, 39, 78, 156, 37, 74, 148, 53, 106, 212, 181, 119, 238, 193, 159, 35, 70, 140, 5, 10, 20, 40, 80, 160, 93, 186, 105, 210, 185, 111, 222, 161, 95, 190, 97, 194, 153, 47, 94, 188, 101, 202, 137, 15, 30, 60, 120, 240, 253, 231, 211, 187, 107, 214, 177, 127, 254, 225, 223, 163, 91, 182, 113, 226, 217, 175, 67, 134, 17, 34, 68, 136, 13, 26, 52, 104, 208, 189, 103, 206, 129, 31, 62, 124, 248, 237, 199, 147, 59, 118, 236, 197, 151, 51, 102, 204, 133, 23, 46, 92, 184, 109, 218, 169, 79, 158, 33, 66, 132, 21, 42, 84, 168, 77, 154, 41, 82, 164, 85, 170, 73, 146, 57, 114, 228, 213, 183, 115, 230, 209, 191, 99, 198, 145, 63, 126, 252, 229, 215, 179, 123, 246, 241, 255, 227, 219, 171, 75, 150, 49, 98, 196, 149, 55, 110, 220, 165, 87, 174, 65, 130, 25, 50, 100, 200, 141, 7, 14, 28, 56, 112, 224, 221, 167, 83, 166, 81, 162, 89, 178, 121, 242, 249, 239, 195, 155, 43, 86, 172, 69, 138, 9, 18, 36, 72, 144, 61, 122, 244, 245, 247, 243, 251, 235, 203, 139, 11, 22, 44, 88, 176, 125, 250, 233, 207, 131, 27, 54, 108, 216, 173, 71, 142, 0, 0]

/-- The log table as a literal list (proved equal to logTab below). -/
def logTabLit : List Nat := [0, 0, 1, 25, 2, 50, 26, 198, 3, 223, 51, 238, 27, 104, 199, 75, 4, 100, 224, 14, 52, 141, 239, 129, 28, 193, 105, 248, 200, 8, 76, 113, 5, 138, 101, 47, 225, 36, 15, 33, 53, 147, 142, 218, 240, 18, 130, 69, 29, 181, 194, 125, 106, 39, 249, 185, 201, 154, 9, 120, 77, 228, 114, 166, 6, 191, 139, 98, 102, 221, 48, 253, 226, 152, 37, 179, 16, 145, 34, 136, 54, 208, 148, 206, 143, 150, 219, 189, 241, 210, 19, 92, 131, 56, 70, 64, 30, 66, 182, 163, 195, 72, 126, 110, 107, 58, 40, 84, 250, 133, 186, 61, 202, 94, 155, 159, 10, 21, 121, 43, 78, 212, 229, 172, 115, 243, 167, 87, 7, 112, 192, 247, 140, 128, 99, 13, 103, 74, 222, 237, 49, 197, 254, 24, 227, 165, 153, 119, 38, 184, 180, 124, 17, 68, 146, 217, 35, 32, 137, 46, 55, 63, 209, 91, 149, 188, 207, 205, 144, 135, 151, 178, 220, 252, 190, 97, 242, 86, 211, 171, 20, 42, 93, 158, 132, 60, 57, 83, 71, 109, 65, 162, 31, 45, 67, 216, 183, 123, 164, 118, 196, 23, 73, 236, 127, 12, 111, 246, 108, 161, 59, 82, 41, 157, 85, 170, 251, 96, 134, 177, 187, 204, 62, 90, 203, 89, 95, 176, 156, 169, 160, 81, 11, 245, 22, 235, 122, 117, 44, 215, 79, 174, 213, 233, 230, 231, 173, 232, 116, 214, 244, 234, 168, 80, 88, 175]

/-- Reading m_expTable[i]. -/
def gfExp (i : Nat) : Nat := expTab.getD i 0

/-- Reading m_logTable[a]. -/
def gfLog (a : Nat) : Nat := logTab.getD a 0

namespace GaloisField

/-- GaloisField::Add: addition in GF(2^8) is XOR. -/
def Add (a b : Nat) : Nat := a ^^^ b

/-- GaloisField::Subtract: same as Add. -/
def Subtract (a b : Nat) : Nat := Add a b

/-- GaloisField::Multiply: 0 if either operand is 0, otherwise
exp[(log[a] + log[b]) mod 255] (the source reduces the sum only when it
is at least 255, which is the same thing for sums below 510). -/
def Multiply (a b : Nat) : Nat :=
  if a = 0 || b = 0 then 0
  else
    let sum := gfLog a + gfLog b
    let sum := if sum ≥ FIELD_SIZE - 1 then sum % (FIELD_SIZE - 1) else sum
    gfExp sum

/-- GaloisField::Divide: returns 0 (after logging an error) when b = 0;
returns 0 when a = 0; otherwise exp[log[a] - log[b]], the difference
shifted up by 255 when negative. -/
def Divide (a b : Nat) : Nat :=
  if b = 0 then 0
  else if a = 0 then 0
  else
    let diff : Int := (gfLog a : Int) - (gfLog b : Int)
    let diff := if diff < 0 then diff + ((FIELD_SIZE - 1 : Nat) : Int) else diff
    gfExp diff.toNat

/-- GaloisField::Inverse: returns 0 (after logging an error) when a = 0;
otherwise exp[255 - log[a]]. -/
def Inverse (a : Nat) : Nat :=
  if a = 0 then 0 else gfExp (FIELD_SIZE - 1 - gfLog a)

end GaloisField

/-! ## A packed copy of the tables

For fast evaluation inside proofs the two tables are also given as single
natural numbers holding one byte per entry (little endian).  The theorems
gfExp_eq_lk and gfLog_eq_lk below prove the packed lookups pointwise equal
to the list lookups, so every fact proved about the packed forms holds of
the source tables. -/

/-- Little-endian byte packing of a list of bytes into one Nat. -/
def pack (l : List Nat) : Nat := l.foldr (fun b acc => b + 256 * acc) 0

/-- Byte i of a packed table. -/
def lkup (N i : Nat) : Nat := (N >>> (8 * i)) &&& 255

/-- The packed value of expTab (proved equal to pack expTab below). -/
def expP : Nat := 8856990713409824987183140402374358080674248354215423657725458004488207893438392946030888853375904797289504668347160626187132259699900233138648534461763796553722681762569641945119264861220663755468484037720775188535579952245867663006651507277791222666826785483398433307595704877043200076058100196638910845779782293078032926818358696911279575842852319355700605339911765372424152090200116912196812683442216396899668384855648195394238364200816963036045261203126476910443940504312987208021345653905171248397066478845569494078144977197837111232127732754508096250939318709245866461879354629945230799664051954596316140836780717108354261181748492094461244742858401085820322168057750326071736368712266714827098764897370398784052097986092416779378404705019203020335569119892153447474284880772368378344689255354826179669527487614603533424485383665010357433079299522588467683458117463774085267711371273156937819115392343347060478494473386782195599410389734005551742428694560297619569031029357707022930644351916425117765030612268580539533293361144518654644548322964103094579667389630079007276152875920723587307542406162776191331872344722220447978477718188404304137896878643387669563613408028725344812418906929574157450205698549093433583337985

/-- The packed value of logTab (proved equal to pack logTab below). -/
def logP : Nat := 22135253156888987530748098150270024343632497605293634117281264061560962248099620766229961468867162294233796152347975563017024165690400661622462404646302566225833645086064538892198543335321514950294300187779610338557442029018619797274438901674641748676613670242915365385819254959901651105240253464034662486586186382979728982817772067067513442677601938078891989292316012868233806586592927239821351197800766822366321181463280924672822998103315976779850880337712374790938628529953751181886374687897611504386983350015558142994211516619836411558782076806704747441947939324473761869443721989389604670425385080942269787340800

/-- Packed lookup into the exp table. -/
def gfExpP (i : Nat) : Nat := lkup expP i

/-- Packed lookup into the log table. -/
def gfLogP (a : Nat) : Nat := lkup logP a

/-- Multiply, written against the packed tables. -/
def MultiplyP (a b : Nat) : Nat :=
  if a = 0 || b = 0 then 0
  else
    let sum := gfLogP a + gfLogP b
    let sum := if sum ≥ FIELD_SIZE - 1 then sum % (FIELD_SIZE - 1) else sum
    gfExpP sum

/-- Divide, written against the packed tables. -/
def DivideP (a b : Nat) : Nat :=
  if b = 0 then 0
  else if a = 0 then 0
  else
    let diff : Int := (gfLogP a : Int) - (gfLogP b : Int)
    let diff := if diff < 0 then diff + ((FIELD_SIZE - 1 : Nat) : Int) else diff
    gfExpP diff.toNat

/-- Inverse, written against the packed tables. -/
def InverseP (a : Nat) : Nat :=
  if a = 0 then 0 else gfExpP (FIELD_SIZE - 1 - gfLogP a)

/-! ## Boolean table checks

Each check walks the 256 byte values once; the theorems turning them into
universally quantified facts follow further down. -/

/-- exp inverts log on nonzero bytes. -/
def chkExpLog : Bool := (List.range 256).all fun a =>
  a == 0 || gfExpP (gfLogP a) == a

/-- log inverts exp on indices up to 254. -/
def chkLogExp : Bool := (List.range 255).all fun k =>
  gfLogP (gfExpP k) == k

/-- The exp table advances by gfStep. -/
def chkExpSucc : Bool := (List.range 255).all fun k =>
  gfExpP ((k + 1) % 255) == gfStep (gfExpP k)

/-- exp never yields 0 on indices up to 254. -/
def chkExpNeZero : Bool := (List.range 255).all fun k =>
  gfExpP k != 0

end ns3

namespace ns3

/-! ## Bridge between the list tables and the packed tables -/

theorem pack_cons (x : Nat) (xs : List Nat) :
    pack (x :: xs) = x + 256 * pack xs := rfl

theorem lkup_pack (l : List Nat) (hl : ∀ x ∈ l, x < 256) (i : Nat) :
    lkup (pack l) i = l.getD i 0 := by
  induction l generalizing i with
  | nil =>
      simp [pack, lkup, Nat.zero_shiftRight]
  | cons x xs ih =>
      have hx : x < 256 := hl x (by simp)
      have hxs : ∀ y ∈ xs, y < 256 := fun y hy => hl y (by simp [hy])
      cases i with
      | zero =>
          have h8 : (255 : Nat) = 2 ^ 8 - 1 := by norm_num
          simp only [lkup, Nat.mul_zero, Nat.shiftRight_zero, pack_cons, List.getD_cons_zero]
          rw [h8, Nat.and_pow_two_sub_one_eq_mod]
          omega
      | succ j =>
          have hsplit : 8 * (j + 1) = 8 + 8 * j := by ring
          have hdiv : (x + 256 * pack xs) >>> 8 = pack xs := by
            rw [Nat.shiftRight_eq_div_pow]
            norm_num
            omega
          simp only [lkup, pack_cons, hsplit, Nat.shiftRight_add, List.getD_cons_succ]
          rw [hdiv]
          exact ih hxs j

theorem gfTables_eq : gfTables = (expTabLit, logTabLit) := by rfl

theorem expTab_eq : expTab = expTabLit := by rw [expTab, gfTables_eq]

theorem logTab_eq : logTab = logTabLit := by rw [logTab, gfTables_eq]

theorem expTab_length : expTab.length = 512 := by rw [expTab_eq]; rfl

theorem logTab_length : logTab.length = 256 := by rw [logTab_eq]; rfl

theorem expTab_bytes : ∀ x ∈ expTab, x < 256 := by rw [expTab_eq]; decide

theorem logTab_bytes : ∀ x ∈ logTab, x < 256 := by rw [logTab_eq]; decide

theorem logTab_le : ∀ x ∈ logTab, x ≤ 254 := by rw [logTab_eq]; decide

theorem pack_expTab : pack expTab = expP := by rw [expTab_eq]; rfl

theorem pack_logTab : pack logTab = logP := by rw [logTab_eq]; rfl

/-- The source table read gfExp agrees with the packed read everywhere. -/
theorem gfExp_eq (i : Nat) : gfExp i = gfExpP i := by
  rw [gfExp, gfExpP, ← pack_expTab, lkup_pack expTab expTab_bytes]

/-- The source table read gfLog agrees with the packed read everywhere. -/
theorem gfLog_eq (a : Nat) : gfLog a = gfLogP a := by
  rw [gfLog, gfLogP, ← pack_logTab, lkup_pack logTab logTab_bytes]

/-- GaloisField::Multiply agrees with its packed form. -/
theorem Multiply_eq (a b : Nat) : GaloisField.Multiply a b = MultiplyP a b := by
  simp only [GaloisField.Multiply, MultiplyP, gfExp_eq, gfLog_eq]

/-- GaloisField::Divide agrees with its packed form. -/
theorem Divide_eq (a b : Nat) : GaloisField.Divide a b = DivideP a b := by
  simp only [GaloisField.Divide, DivideP, gfExp_eq, gfLog_eq]

/-- GaloisField::Inverse agrees with its packed form. -/
theorem Inverse_eq (a : Nat) : GaloisField.Inverse a = InverseP a := by
  simp only [GaloisField.Inverse, InverseP, gfExp_eq, gfLog_eq]

/-! ## Facts about the tables -/

theorem gfExpP_le (i : Nat) : gfExpP i ≤ 255 := Nat.and_le_right

theorem gfLogP_lt (a : Nat) : gfLogP a ≤ 254 := by
  rcases Nat.lt_or_ge a 256 with h | h
  · have hm : gfLogP a = logTab.getD a 0 := (gfLog_eq a).symm
    rw [hm]
    have hlen : a < logTab.length := by rw [logTab_length]; exact h
    have hmem : logTab.getD a 0 ∈ logTab := by
      rw [List.getD_eq_getElem?_getD, List.getElem?_eq_getElem hlen]
      exact List.getElem_mem hlen
    exact logTab_le _ hmem
  · have hm : gfLogP a = logTab.getD a 0 := (gfLog_eq a).symm
    rw [hm, List.getD_eq_default]
    · omega
    · rw [logTab_length]; exact h

theorem chkExpLog_eq : chkExpLog = true := by rfl

theorem chkLogExp_eq : chkLogExp = true := by rfl

theorem chkExpSucc_eq : chkExpSucc = true := by rfl

theorem chkExpNeZero_eq : chkExpNeZero = true := by rfl

/-- exp inverts log on nonzero bytes. -/
theorem exp_log {a : Nat} (h0 : a ≠ 0) (h : a < 256) : gfExpP (gfLogP a) = a := by
  have hc := chkExpLog_eq
  rw [chkExpLog, List.all_eq_true] at hc
  have := hc a (List.mem_range.mpr h)
  simp at this
  rcases this with h1 | h1
  · exact absurd h1 h0
  · exact h1

/-- log inverts exp below 255. -/
theorem log_exp {k : Nat} (h : k < 255) : gfLogP (gfExpP k) = k := by
  have hc := chkLogExp_eq
  rw [chkLogExp, List.all_eq_true] at hc
  have := hc k (List.mem_range.mpr h)
  simpa using this

/-- The exp table advances by gfStep. -/
theorem exp_succ {k : Nat} (h : k < 255) : gfExpP ((k + 1) % 255) = gfStep (gfExpP k) := by
  have hc := chkExpSucc_eq
  rw [chkExpSucc, List.all_eq_true] at hc
  have := hc k (List.mem_range.mpr h)
  simpa using this

/-- exp is nonzero below 255. -/
theorem exp_ne_zero {k : Nat} (h : k < 255) : gfExpP k ≠ 0 := by
  have hc := chkExpNeZero_eq
  rw [chkExpNeZero, List.all_eq_true] at hc
  have := hc k (List.mem_range.mpr h)
  simpa using this

theorem gfExpP_zero : gfExpP 0 = 1 := by rfl

theorem gfExpP_255 : gfExpP 255 = 1 := by rfl

theorem gfLogP_zero : gfLogP 0 = 0 := by rfl

theorem gfLogP_one : gfLogP 1 = 0 := by rfl

end ns3

namespace ns3

/-! ## Algebra of the packed operations -/

theorem MP_zero_left (b : Nat) : MultiplyP 0 b = 0 := by simp [MultiplyP]

theorem MP_zero_right (a : Nat) : MultiplyP a 0 = 0 := by simp [MultiplyP]

theorem MP_nonzero {a b : Nat} (ha : a ≠ 0) (hb : b ≠ 0) :
    MultiplyP a b = gfExpP ((gfLogP a + gfLogP b) % 255) := by
  rw [MultiplyP]
  simp only [ha, hb, decide_eq_true_eq, Bool.or_eq_true, decide_eq_false, if_false]
  have h255 : FIELD_SIZE - 1 = 255 := rfl
  rw [h255]
  by_cases hge : gfLogP a + gfLogP b ≥ 255
  · simp [hge]
  · simp only [hge, if_false]
    rw [Nat.mod_eq_of_lt (by omega)]
    simp

theorem MP_comm (a b : Nat) : MultiplyP a b = MultiplyP b a := by
  by_cases ha : a = 0
  · simp [ha, MP_zero_left, MP_zero_right]
  · by_cases hb : b = 0
    · simp [hb, MP_zero_left, MP_zero_right]
    · rw [MP_nonzero ha hb, MP_nonzero hb ha, Nat.add_comm]

theorem MP_ne_zero {a b : Nat} (ha : a ≠ 0) (hb : b ≠ 0) : MultiplyP a b ≠ 0 := by
  rw [MP_nonzero ha hb]
  exact exp_ne_zero (Nat.mod_lt _ (by norm_num))

theorem log_MP {a b : Nat} (ha : a ≠ 0) (hb : b ≠ 0) :
    gfLogP (MultiplyP a b) = (gfLogP a + gfLogP b) % 255 := by
  rw [MP_nonzero ha hb]
  exact log_exp (Nat.mod_lt _ (by norm_num))

theorem MP_le (a b : Nat) : MultiplyP a b ≤ 255 := by
  by_cases ha : a = 0
  · simp [ha, MP_zero_left]
  · by_cases hb : b = 0
    · simp [hb, MP_zero_right]
    · rw [MP_nonzero ha hb]; exact gfExpP_le _

theorem MP_one_left {a : Nat} (h : a < 256) : MultiplyP 1 a = a := by
  by_cases ha : a = 0
  · simp [ha, MP_zero_right]
  · rw [MP_nonzero one_ne_zero ha, gfLogP_one, Nat.zero_add,
      Nat.mod_eq_of_lt (by have := gfLogP_lt a; omega)]
    exact exp_log ha h

theorem MP_one_right {a : Nat} (h : a < 256) : MultiplyP a 1 = a := by
  rw [MP_comm]; exact MP_one_left h

theorem MP_assoc (a b c : Nat) :
    MultiplyP (MultiplyP a b) c = MultiplyP a (MultiplyP b c) := by
  by_cases h0a : a = 0
  · simp [h0a, MP_zero_left]
  by_cases h0b : b = 0
  · simp [h0b, MP_zero_left, MP_zero_right]
  by_cases h0c : c = 0
  · simp [h0c, MP_zero_right]
  have hab := MP_ne_zero h0a h0b
  have hbc := MP_ne_zero h0b h0c
  rw [MP_nonzero hab h0c, MP_nonzero h0a hbc, log_MP h0a h0b, log_MP h0b h0c]
  congr 1
  omega

theorem MP_inv {a : Nat} (ha : a ≠ 0) (h : a < 256) :
    MultiplyP a (InverseP a) = 1 := by
  have hla := gfLogP_lt a
  rw [InverseP, if_neg ha]
  show MultiplyP a (gfExpP (FIELD_SIZE - 1 - gfLogP a)) = 1
  have h255 : FIELD_SIZE - 1 = 255 := rfl
  rw [h255]
  by_cases hl0 : gfLogP a = 0
  · have hae : a = 1 := by
      have := exp_log ha h
      rw [hl0, gfExpP_zero] at this
      omega
    subst hae
    rw [hl0]
    norm_num [gfExpP_255]
    rw [MP_nonzero one_ne_zero one_ne_zero, gfLogP_one]
    exact gfExpP_zero
  · have hidx : 255 - gfLogP a < 255 := by omega
    have hinz : gfExpP (255 - gfLogP a) ≠ 0 := exp_ne_zero hidx
    rw [MP_nonzero ha hinz, log_exp hidx]
    have harg : (gfLogP a + (255 - gfLogP a)) % 255 = 0 := by omega
    rw [harg, gfExpP_zero]

/-! ## gfStep is linear over XOR -/

/-- The closed form of gfStep on bytes, checked over the 256 byte values. -/
def chkStepForm : Bool := (List.range 256).all fun x =>
  gfStep x == (2 * x) ^^^ (if x.testBit 7 then 285 else 0)

theorem chkStepForm_eq : chkStepForm = true := by rfl

theorem gfStep_form {x : Nat} (h : x < 256) :
    gfStep x = (2 * x) ^^^ (if x.testBit 7 then 285 else 0) := by
  have hc := chkStepForm_eq
  rw [chkStepForm, List.all_eq_true] at hc
  have := hc x (List.mem_range.mpr h)
  simpa using this

theorem two_mul_xor (p q : Nat) : 2 * (p ^^^ q) = 2 * p ^^^ 2 * q := by
  have e : ∀ x : Nat, 2 * x = x <<< 1 := fun x => by rw [Nat.shiftLeft_eq]; ring
  apply Nat.eq_of_testBit_eq
  intro i
  rw [e, e, e, Nat.testBit_xor, Nat.testBit_shiftLeft, Nat.testBit_shiftLeft,
    Nat.testBit_shiftLeft, Nat.testBit_xor]
  cases hd : decide (i ≥ 1) <;> simp [hd]

theorem xor_mix (a b c d : Nat) : (a ^^^ b) ^^^ (c ^^^ d) = (a ^^^ c) ^^^ (b ^^^ d) := by
  apply Nat.eq_of_testBit_eq
  intro i
  simp only [Nat.testBit_xor]
  cases a.testBit i <;> cases b.testBit i <;> cases c.testBit i <;> cases d.testBit i <;> rfl

theorem mask_xor (x y : Bool) :
    (if (x ^^ y) then (285 : Nat) else 0) =
      (if x then (285 : Nat) else 0) ^^^ (if y then (285 : Nat) else 0) := by
  cases x <;> cases y <;> simp

theorem gfStep_xor {p q : Nat} (hp : p < 256) (hq : q < 256) :
    gfStep (p ^^^ q) = gfStep p ^^^ gfStep q := by
  have hpq : p ^^^ q < 256 := by
    have : p ^^^ q < 2 ^ 8 := Nat.xor_lt_two_pow (by norm_num [hp]) (by norm_num [hq])
    norm_num at this
    exact this
  rw [gfStep_form hpq, gfStep_form hp, gfStep_form hq, Nat.testBit_xor,
    two_mul_xor, mask_xor, xor_mix]

end ns3

namespace ns3

/-! ## Distributivity via the Zech logarithm

For v not congruent to 0, 1 XOR exp v is a nonzero byte, so it is exp z
for z the Zech logarithm of v; the key identity
exp u XOR exp (u+v) = exp (u+z) then follows by induction on u because
both exp-stepping (gfStep) and XOR commute. -/

theorem xor_lt_256 {p q : Nat} (hp : p < 256) (hq : q < 256) : p ^^^ q < 256 := by
  have : p ^^^ q < 2 ^ 8 := Nat.xor_lt_two_pow (by norm_num [hp]) (by norm_num [hq])
  norm_num at this
  exact this

theorem gfExpP_lt (i : Nat) : gfExpP i < 256 := by
  have := gfExpP_le i
  omega

theorem zech_aux {v : Nat} (hv0 : v ≠ 0) (hv : v ≤ 254) :
    1 ^^^ gfExpP v ≠ 0 ∧ 1 ^^^ gfExpP v < 256 := by
  constructor
  · intro hz
    rw [Nat.xor_eq_zero] at hz
    have := log_exp (show v < 255 by omega)
    rw [← hz, gfLogP_one] at this
    exact hv0 this.symm
  · exact xor_lt_256 (by norm_num) (gfExpP_lt v)

theorem zech_key {v : Nat} (hv0 : v ≠ 0) (hv : v ≤ 254) :
    ∀ u, u ≤ 254 →
      gfExpP u ^^^ gfExpP ((u + v) % 255) =
        gfExpP ((u + gfLogP (1 ^^^ gfExpP v)) % 255) := by
  intro u
  induction u with
  | zero =>
      intro _
      have hz := zech_aux hv0 hv
      rw [gfExpP_zero, Nat.zero_add, Nat.zero_add, Nat.mod_eq_of_lt (by omega),
        Nat.mod_eq_of_lt (by have := gfLogP_lt (1 ^^^ gfExpP v); omega)]
      exact (exp_log hz.1 hz.2).symm
  | succ u ih =>
      intro hu
      have hu' : u ≤ 254 := by omega
      have ih' := ih hu'
      have h1 : gfExpP (u + 1) = gfStep (gfExpP u) := by
        rw [← exp_succ (show u < 255 by omega), Nat.mod_eq_of_lt (by omega)]
      have h2 : (u + 1 + v) % 255 = ((u + v) % 255 + 1) % 255 := by omega
      have h3 : gfExpP (((u + v) % 255 + 1) % 255) = gfStep (gfExpP ((u + v) % 255)) :=
        exp_succ (Nat.mod_lt _ (by norm_num))
      have h4 : gfExpP (((u + gfLogP (1 ^^^ gfExpP v)) % 255 + 1) % 255) =
          gfStep (gfExpP ((u + gfLogP (1 ^^^ gfExpP v)) % 255)) :=
        exp_succ (Nat.mod_lt _ (by norm_num))
      have h5 : (u + 1 + gfLogP (1 ^^^ gfExpP v)) % 255 =
          ((u + gfLogP (1 ^^^ gfExpP v)) % 255 + 1) % 255 := by omega
      rw [h1, h2, h3, h5, h4, ← gfStep_xor (gfExpP_lt u) (gfExpP_lt _), ih']

theorem MP_distrib {a b c : Nat} (ha : a < 256) (hb : b < 256) (hc : c < 256) :
    MultiplyP a (b ^^^ c) = MultiplyP a b ^^^ MultiplyP a c := by
  by_cases h0a : a = 0
  · simp [h0a, MP_zero_left]
  by_cases h0b : b = 0
  · simp [h0b, MP_zero_left, MP_zero_right, Nat.zero_xor]
  by_cases h0c : c = 0
  · simp [h0c, MP_zero_left, MP_zero_right, Nat.xor_zero]
  by_cases hbc : b = c
  · subst hbc
    simp [Nat.xor_self, MP_zero_right]
  have hla := gfLogP_lt a
  have hlb := gfLogP_lt b
  have hlc := gfLogP_lt c
  have hlbc : gfLogP b ≠ gfLogP c := by
    intro he
    apply hbc
    have h1 := exp_log h0b hb
    have h2 := exp_log h0c hc
    rw [← h1, ← h2, he]
  set la := gfLogP a with hsetla
  set lb := gfLogP b with hsetlb
  set lc := gfLogP c with hsetlc
  set v := (lc + 255 - lb) % 255 with hv
  have hv0 : v ≠ 0 := by omega
  have hv254 : v ≤ 254 := by omega
  have hlcv : (lb + v) % 255 = lc := by omega
  set z := gfLogP (1 ^^^ gfExpP v) with hz
  have hzb := gfLogP_lt (1 ^^^ gfExpP v)
  -- the XOR of b and c in exponential form
  have hbe : b = gfExpP lb := (exp_log h0b hb).symm
  have hce : c = gfExpP lc := (exp_log h0c hc).symm
  have hxor : b ^^^ c = gfExpP ((lb + z) % 255) := by
    rw [hbe, hce, ← hlcv]
    exact zech_key hv0 hv254 lb (by omega)
  have hxnz : b ^^^ c ≠ 0 := by
    intro he
    rw [Nat.xor_eq_zero] at he
    exact hbc he
  have hlx : gfLogP (b ^^^ c) = (lb + z) % 255 := by
    rw [hxor]
    exact log_exp (Nat.mod_lt _ (by norm_num))
  rw [MP_nonzero h0a hxnz, MP_nonzero h0a h0b, MP_nonzero h0a h0c, hlx,
    ← hsetla, ← hsetlb, ← hsetlc]
  have hu : (la + lb) % 255 ≤ 254 := by omega
  have hrhs := zech_key hv0 hv254 ((la + lb) % 255) hu
  have h6 : ((la + lb) % 255 + v) % 255 = (la + lc) % 255 := by omega
  have h7 : ((la + lb) % 255 + z) % 255 = (la + (lb + z) % 255) % 255 := by omega
  rw [h6, h7] at hrhs
  rw [← hrhs]

end ns3

namespace ns3

/-! ## Division -/

theorem DP_b_zero (a : Nat) : DivideP a 0 = 0 := by simp [DivideP]

theorem DP_a_zero {b : Nat} (hb : b ≠ 0) : DivideP 0 b = 0 := by simp [DivideP, hb]

theorem DP_nat_form {a b : Nat} (ha : a ≠ 0) (hb : b ≠ 0) :
    DivideP a b = gfExpP ((gfLogP a + 255 - gfLogP b) % 255) := by
  have hla := gfLogP_lt a
  have hlb := gfLogP_lt b
  rw [DivideP]
  simp only [ha, hb, if_false, if_neg]
  have h255 : ((FIELD_SIZE - 1 : Nat) : Int) = 255 := rfl
  rw [h255]
  by_cases hlt : (gfLogP a : Int) - gfLogP b < 0
  · simp only [hlt, if_true]
    congr 1
    omega
  · simp only [hlt, if_false]
    congr 1
    omega

theorem DP_MP {a b : Nat} (ha : a < 256) (hb0 : b ≠ 0) (hb : b < 256) :
    DivideP (MultiplyP a b) b = a := by
  by_cases h0a : a = 0
  · rw [h0a, MP_zero_left]
    exact DP_a_zero hb0
  · have hm := MP_ne_zero h0a hb0
    have hla := gfLogP_lt a
    have hlb := gfLogP_lt b
    rw [DP_nat_form hm hb0, log_MP h0a hb0]
    have harg : ((gfLogP a + gfLogP b) % 255 + 255 - gfLogP b) % 255 = gfLogP a := by
      omega
    rw [harg]
    exact exp_log h0a ha

theorem IP_zero : InverseP 0 = 0 := by simp [InverseP]

/-! ## Claim theorems for the field (C2, C3, C4) -/

/-- C2: for all field elements a, b, c in 0..255, Add is commutative and
associative, Multiply is commutative and distributes over Add, every
nonzero a satisfies Multiply(a, Inverse(a)) = 1, and every nonzero b
satisfies Divide(Multiply(a,b), b) = a.  All six contracts hold of the
source operations. -/
theorem C2_field_axioms (a b c : Nat) (ha : a < 256) (hb : b < 256) (hc : c < 256) :
    GaloisField.Add a b = GaloisField.Add b a ∧
    GaloisField.Add a (GaloisField.Add b c) = GaloisField.Add (GaloisField.Add a b) c ∧
    GaloisField.Multiply a b = GaloisField.Multiply b a ∧
    GaloisField.Multiply a (GaloisField.Add b c) = GaloisField.Add (GaloisField.Multiply a b) (GaloisField.Multiply a c) ∧
    (a ≠ 0 → GaloisField.Multiply a (GaloisField.Inverse a) = 1) ∧
    (b ≠ 0 → GaloisField.Divide (GaloisField.Multiply a b) b = a) := by
  refine ⟨Nat.xor_comm a b, (Nat.xor_assoc a b c).symm, ?_, ?_, ?_, ?_⟩
  · rw [Multiply_eq, Multiply_eq]
    exact MP_comm a b
  · rw [GaloisField.Add, GaloisField.Add, Multiply_eq, Multiply_eq, Multiply_eq]
    exact MP_distrib ha hb hc
  · intro h0
    rw [Multiply_eq, Inverse_eq]
    exact MP_inv h0 ha
  · intro h0
    rw [Divide_eq, Multiply_eq]
    exact DP_MP ha h0 hb

/-- Witness for C2 at a = 2, b = 3, c = 5. -/
theorem C2_field_axioms_witness :
    GaloisField.Add 2 3 = GaloisField.Add 3 2 ∧
    GaloisField.Add 2 (GaloisField.Add 3 5) = GaloisField.Add (GaloisField.Add 2 3) 5 ∧
    GaloisField.Multiply 2 3 = GaloisField.Multiply 3 2 ∧
    GaloisField.Multiply 2 (GaloisField.Add 3 5) = GaloisField.Add (GaloisField.Multiply 2 3) (GaloisField.Multiply 2 5) ∧
    ((2 : Nat) ≠ 0 → GaloisField.Multiply 2 (GaloisField.Inverse 2) = 1) ∧
    ((3 : Nat) ≠ 0 → GaloisField.Divide (GaloisField.Multiply 2 3) 3 = 2) :=
  C2_field_axioms 2 3 5 (by norm_num) (by norm_num) (by norm_num)

/-- C3 counterexample: Divide(1,0) returns the field element 0, exactly the
value of the legitimate quotient Divide(0,1), and Inverse(0) returns 0 as
well, so the b = 0 outcome is not distinguishable from a valid zero
result.  This refutes the claim that Divide fails with an error signal
distinguishable from a valid zero result. -/
theorem C3_divide_zero_cex :
    GaloisField.Divide 1 0 = 0 ∧ GaloisField.Divide 0 1 = 0 ∧ GaloisField.Inverse 0 = 0 := by
  refine ⟨?_, ?_, ?_⟩ <;> simp [Divide_eq, Inverse_eq, DivideP, InverseP]

/-- C3 amended: Divide(a,0) logs an error and returns 0, which is
indistinguishable from a legitimate zero result; for b nonzero, Divide
returns 0 when a = 0 and antilog[(log[a] - log[b] + 255) mod 255]
otherwise; Inverse(0) likewise logs and returns 0. -/
theorem C3_divide_amended (a b : Nat) (ha : a < 256) (hb : b < 256) :
    GaloisField.Divide a 0 = 0 ∧
    (b ≠ 0 → GaloisField.Divide 0 b = 0) ∧
    (b ≠ 0 → a ≠ 0 →
      GaloisField.Divide a b = gfExp (((gfLog a : Int) - gfLog b + 255) % 255).toNat) ∧
    GaloisField.Inverse 0 = 0 := by
  have hla := gfLogP_lt a
  have hlb := gfLogP_lt b
  refine ⟨?_, ?_, ?_, ?_⟩
  · rw [Divide_eq]; exact DP_b_zero a
  · intro h0
    rw [Divide_eq]; exact DP_a_zero h0
  · intro hb0 ha0
    rw [Divide_eq, gfLog_eq, gfLog_eq, gfExp_eq, DP_nat_form ha0 hb0]
    congr 1
    omega
  · rw [Inverse_eq]; exact IP_zero

/-- Witness for C3 amended at a = 7, b = 9. -/
theorem C3_divide_amended_witness :
    GaloisField.Divide 7 0 = 0 ∧
    ((9 : Nat) ≠ 0 → GaloisField.Divide 0 9 = 0) ∧
    ((9 : Nat) ≠ 0 → (7 : Nat) ≠ 0 →
      GaloisField.Divide 7 9 = gfExp (((gfLog 7 : Int) - gfLog 9 + 255) % 255).toNat) ∧
    GaloisField.Inverse 0 = 0 :=
  C3_divide_amended 7 9 (by norm_num) (by norm_num)

/-- C4 counterexample: with the tables built from the primitive polynomial
0x11d the product of 0x53 and 0xCA is 0x8F, not 0x01 (0x01 is the value in
the AES field 0x11b, which is not the polynomial this code uses). -/
theorem C4_multiply_vector_cex :
    GaloisField.Multiply 0x53 0xCA = 0x8F ∧ (0x8F : Nat) ≠ 0x01 := by
  constructor
  · rw [Multiply_eq]; rfl
  · norm_num

/-- C4 amended: the concrete vectors that hold of the 0x11d tables are
Add(0x53,0xCA) = 0x99, Multiply(0x53,0xCA) = 0x8F and
Divide(0x01,0x01) = 0x01. -/
theorem C4_field_vectors_amended :
    GaloisField.Add 0x53 0xCA = 0x99 ∧ GaloisField.Multiply 0x53 0xCA = 0x8F ∧ GaloisField.Divide 0x01 0x01 = 0x01 := by
  refine ⟨by rfl, by rw [Multiply_eq]; rfl, by rw [Divide_eq]; rfl⟩

end ns3

namespace ns3

/-! ## Wire format and encoder (src/model/network-coding-encoder.cc)

The std::map of buffered packets is modelled as an association list sorted
by sequence number, which reproduces the iteration order of the C++ map.
The random coefficient draws of GenerateCodedPacket are passed in as an
explicit stream draws : Nat -> Nat (draw i is used for the i-th buffered
packet). -/

/-- Copying a byte vector into a zeroed buffer of n bytes: entry i is the
source byte for i below min(length, n) and 0 past it.  This is the package
copy pattern used by AddPacket, ProcessCodedPacket and the header
padding. -/
def padTo (l : List Nat) (n : Nat) : List Nat :=
  (List.range n).map fun i => if i < min l.length n then l.getD i 0 else 0

/-- NetworkCodingHeader: generation id, generation size and the
coefficient vector. -/
structure NetworkCodingHeader where
  generationId : Nat
  generationSize : Nat
  coefficients : List Nat
deriving DecidableEq

/-- A coded packet: header plus payload bytes. -/
structure CodedPacket where
  header : NetworkCodingHeader
  payload : List Nat
deriving DecidableEq

/-- The state of NetworkCodingEncoder. -/
structure NetworkCodingEncoder where
  generationSize : Nat
  packetSize : Nat
  currentGeneration : Nat
  generationPackets : List (Nat × List Nat)
deriving DecidableEq

/-- The two-argument constructor NetworkCodingEncoder(generationSize,
packetSize). -/
def mkEncoder (gs ps : Nat) : NetworkCodingEncoder :=
  { generationSize := gs, packetSize := ps, currentGeneration := 0,
    generationPackets := [] }

/-- Insertion into the std::map: keeps the association list sorted by key. -/
def mapInsert (k : Nat) (v : List Nat) : List (Nat × List Nat) → List (Nat × List Nat)
  | [] => [(k, v)]
  | p :: rest => if k < p.1 then (k, v) :: p :: rest else p :: mapInsert k v rest

/-- Membership test of the std::map (m_generationPackets.find != end). -/
def mapContains (k : Nat) (m : List (Nat × List Nat)) : Bool :=
  m.any fun p => p.1 == k

/-- Lookup in the std::map (the value bound to a key, if any). -/
def mapFind (k : Nat) : List (Nat × List Nat) → Option (List Nat)
  | [] => none
  | p :: rest => if p.1 = k then some p.2 else mapFind k rest

/-- NetworkCodingEncoder::AddPacket.  Null packets are not representable in
the model; the remaining source checks appear in source order: generation
full, duplicate sequence number, then normalization of the payload to
exactly packetSize bytes (copied unchanged when the size already matches,
otherwise copied into a zeroed buffer of packetSize bytes). -/
def AddPacket (e : NetworkCodingEncoder) (payload : List Nat) (seqNum : Nat) :
    Bool × NetworkCodingEncoder :=
  if e.generationPackets.length ≥ e.generationSize then (false, e)
  else if mapContains seqNum e.generationPackets then (false, e)
  else
    let newPacket :=
      if payload.length = e.packetSize then payload
      else padTo payload e.packetSize
    (true, { e with generationPackets := mapInsert seqNum newPacket e.generationPackets })

/-- NetworkCodingEncoder::IsGenerationComplete. -/
def IsGenerationComplete (e : NetworkCodingEncoder) : Bool :=
  e.generationPackets.length ≥ e.generationSize

/-- The coded-payload accumulation loop of GenerateCodedPacket: walks the
buffered packets in map order and, for every position below the generation
size whose coefficient is nonzero, adds the Multiply-weighted packet bytes
into the accumulator with Add. -/
def codedCombine (coeffs : List Nat) (pkts : List (List Nat)) (gs ps : Nat) : List Nat :=
  (pkts.enum).foldl
    (fun acc pr =>
      if pr.1 < gs ∧ coeffs.getD pr.1 0 ≠ 0 then
        (List.range ps).map fun i =>
          GaloisField.Add (acc.getD i 0) (GaloisField.Multiply (coeffs.getD pr.1 0) (pr.2.getD i 0))
      else acc)
    (List.replicate ps 0)

/-- NetworkCodingEncoder::GenerateCodedPacket.  Fails (none) when no packet
is buffered; otherwise draws one coefficient per buffered packet (positions
past the generation size stay zero), combines the buffered payloads and
emits the coded packet with a header carrying the generation id, the
generation size and the coefficients.  The encoder state is returned
unchanged, as the C++ method touches no member. -/
def GenerateCodedPacket (e : NetworkCodingEncoder) (draws : Nat → Nat) :
    Option CodedPacket × NetworkCodingEncoder :=
  if e.generationPackets = [] then (none, e)
  else
    let pkts := e.generationPackets.map Prod.snd
    let coefficients := (List.range e.generationSize).map fun i =>
      if i < min pkts.length e.generationSize then draws i else 0
    let payload := codedCombine coefficients pkts e.generationSize e.packetSize
    (some { header := { generationId := e.currentGeneration,
                        generationSize := e.generationSize,
                        coefficients := coefficients },
            payload := payload }, e)

/-- The payload normalization exactly as claim C8 words it: zero-padded if
the input is shorter than packetSize, truncated if longer. -/
def specNormalize (payload : List Nat) (ps : Nat) : List Nat :=
  payload.take ps ++ List.replicate (ps - payload.length) 0

end ns3

namespace ns3

/-! ## Encoder claims (C8, C9) -/

/-- The source normalization (identity on exact-size payloads, zeroed
buffer copy otherwise) agrees with the take-and-pad description. -/
theorem normalize_eq (payload : List Nat) (ps : Nat) :
    (if payload.length = ps then payload
     else padTo payload ps) =
    specNormalize payload ps := by
  by_cases he : payload.length = ps
  · simp only [he, if_true, specNormalize]
    rw [← he, List.take_length, Nat.sub_self, List.replicate_zero, List.append_nil]
  · simp only [he, if_false, specNormalize, padTo]
    apply List.ext_getElem
    · simp only [List.length_map, List.length_range, List.length_append,
        List.length_take, List.length_replicate]
      omega
    · intro i h1 h2
      have hips : i < ps := by simpa using h1
      simp only [List.getElem_map, List.getElem_range]
      by_cases hi : i < payload.length
      · have hit : i < (payload.take ps).length := by
          simp only [List.length_take]
          omega
        rw [List.getElem_append_left hit]
        have hcond : i < min payload.length ps := by omega
        simp only [hcond, if_true, List.getElem_take]
        rw [List.getD_eq_getElem payload 0 hi]
      · have hit : (payload.take ps).length ≤ i := by
          simp only [List.length_take]
          omega
        rw [List.getElem_append_right hit]
        have hcond : ¬ i < min payload.length ps := by omega
        simp only [hcond, if_false, List.getElem_replicate]

/-- mapInsert never disturbs the binding of any other key. -/
theorem mapFind_insert_ne (k k' : Nat) (v : List Nat)
    (m : List (Nat × List Nat)) (h : k' ≠ k) :
    mapFind k' (mapInsert k v m) = mapFind k' m := by
  induction m with
  | nil =>
      show (if k = k' then some v else mapFind k' []) = none
      rw [if_neg (Ne.symm h), mapFind]
  | cons p rest ih =>
      rw [mapInsert]
      by_cases hk : k < p.1
      · rw [if_pos hk]
        show (if k = k' then some v else mapFind k' (p :: rest)) = mapFind k' (p :: rest)
        rw [if_neg (Ne.symm h)]
      · rw [if_neg hk]
        show (if p.1 = k' then some p.2 else mapFind k' (mapInsert k v rest)) =
          (if p.1 = k' then some p.2 else mapFind k' rest)
        rw [ih]

/-- C8: AddPacket(payload, seqNum) returns false and leaves the encoder
unchanged when the generation already holds generationSize packets or when
seqNum is already buffered; otherwise it returns true and stores the
payload normalized to exactly packetSize bytes (zero-padded if shorter,
truncated if longer) under seqNum, leaving every other buffered packet
unchanged. -/
theorem C8_addpacket (e : NetworkCodingEncoder) (payload : List Nat) (seqNum : Nat) :
    (e.generationPackets.length ≥ e.generationSize →
      AddPacket e payload seqNum = (false, e)) ∧
    (mapContains seqNum e.generationPackets = true →
      AddPacket e payload seqNum = (false, e)) ∧
    (e.generationPackets.length < e.generationSize →
      mapContains seqNum e.generationPackets = false →
      AddPacket e payload seqNum =
        (true, { e with generationPackets := mapInsert seqNum (specNormalize payload e.packetSize) e.generationPackets }) ∧
      ∀ k, k ≠ seqNum →
        mapFind k ((AddPacket e payload seqNum).2.generationPackets) =
          mapFind k e.generationPackets) := by
  refine ⟨?_, ?_, ?_⟩
  · intro hfull
    rw [AddPacket, if_pos hfull]
  · intro hdup
    rw [AddPacket]
    by_cases hfull : e.generationPackets.length ≥ e.generationSize
    · rw [if_pos hfull]
    · rw [if_neg hfull, hdup, if_pos rfl]
  · intro hroom hnew
    have hstep : AddPacket e payload seqNum =
        (true, { e with generationPackets := mapInsert seqNum (specNormalize payload e.packetSize) e.generationPackets }) := by
      rw [AddPacket, if_neg (by omega), hnew]
      simp only [Bool.false_eq_true, if_false]
      rw [normalize_eq]
    refine ⟨hstep, ?_⟩
    intro k hk
    rw [hstep]
    exact mapFind_insert_ne seqNum k _ _ hk

/-- Witness for C8 on a fresh 2-packet-generation encoder with packet size
3: a 2-byte payload is padded, stored under sequence number 5, and the
call reports success. -/
theorem C8_addpacket_witness :
    ((mkEncoder 2 3).generationPackets.length ≥ (mkEncoder 2 3).generationSize →
      AddPacket (mkEncoder 2 3) [7, 8] 5 = (false, mkEncoder 2 3)) ∧
    (mapContains 5 (mkEncoder 2 3).generationPackets = true →
      AddPacket (mkEncoder 2 3) [7, 8] 5 = (false, mkEncoder 2 3)) ∧
    ((mkEncoder 2 3).generationPackets.length < (mkEncoder 2 3).generationSize →
      mapContains 5 (mkEncoder 2 3).generationPackets = false →
      AddPacket (mkEncoder 2 3) [7, 8] 5 =
        (true, { mkEncoder 2 3 with generationPackets := mapInsert 5 (specNormalize [7, 8] (mkEncoder 2 3).packetSize) (mkEncoder 2 3).generationPackets }) ∧
      ∀ k, k ≠ 5 →
        mapFind k ((AddPacket (mkEncoder 2 3) [7, 8] 5).2.generationPackets) =
          mapFind k (mkEncoder 2 3).generationPackets) :=
  C8_addpacket (mkEncoder 2 3) [7, 8] 5

/-- C9: GenerateCodedPacket has no side effect on the encoder state (so it
may be repeated arbitrarily often to produce redundant combinations), and
it returns null exactly when the encoder holds zero buffered packets. -/
theorem C9_generate_frame (e : NetworkCodingEncoder) (draws : Nat → Nat) :
    (GenerateCodedPacket e draws).2 = e ∧
    ((GenerateCodedPacket e draws).1 = none ↔ e.generationPackets = []) := by
  rw [GenerateCodedPacket]
  by_cases he : e.generationPackets = []
  · simp [he]
  · simp [he]

end ns3

namespace ns3

/-! ## Decoder (src/model/network-coding-decoder.cc)

The decoder state carries the generation geometry, the decoded flag, the
coefficient matrix, the coded payload matrix, the decoded packet cache and
the received-sequence set.  Matrices are lists of byte rows; reads go
through mget, which mirrors the C++ two-step indexing. -/

/-- The state of NetworkCodingDecoder. -/
structure NetworkCodingDecoder where
  generationSize : Nat
  packetSize : Nat
  currentGeneration : Nat
  decoded : Bool
  coefficients : List (List Nat)
  codedPayloads : List (List Nat)
  decodedPackets : List (List Nat)
  receivedSequences : List Nat
deriving DecidableEq

/-- The two-argument constructor NetworkCodingDecoder(generationSize,
packetSize): zeroed matrices, generation 0, nothing decoded. -/
def mkDecoder (gs ps : Nat) : NetworkCodingDecoder :=
  { generationSize := gs, packetSize := ps, currentGeneration := 0, decoded := false,
    coefficients := List.replicate gs (List.replicate gs 0),
    codedPayloads := List.replicate gs (List.replicate ps 0),
    decodedPackets := [], receivedSequences := [] }

/-- Matrix read m[i][j]. -/
def mget (m : List (List Nat)) (i j : Nat) : Nat := (m.getD i []).getD j 0

/-- std::swap of two rows. -/
def listSwap (m : List (List Nat)) (a b : Nat) : List (List Nat) :=
  let ra := m.getD a []
  let rb := m.getD b []
  (m.set a rb).set b ra

/-- The while loop of CalculateRank that walks pivotRow from rank upward
past zero entries of column j (stops at the first nonzero entry or at the
generation size). -/
def pivotScan (m : List (List Nat)) (j gs r : Nat) : Nat :=
  if r < gs then
    if mget m r j = 0 then pivotScan m j gs (r + 1) else r
  else r
termination_by gs - r

/-- The elimination of one row below the pivot in CalculateRank: for
k = j .. gs-1 the row entry becomes Subtract(row[k], Multiply(factor,
pivotRow[k])). -/
def rowElimFrom (pivotRow row : List Nat) (factor j gs : Nat) : List Nat :=
  (List.range' j (gs - j)).foldl
    (fun r k => r.set k (GaloisField.Subtract (r.getD k 0) (GaloisField.Multiply factor (pivotRow.getD k 0))))
    row

/-- The loop of CalculateRank that eliminates column j from the rows
below the pivot row (the row list is instantiated with the indices from
rank+1 up to gs-1). -/
def elimBelow (gs j rank : Nat) (l : List Nat) (m1 : List (List Nat)) :
    List (List Nat) :=
  l.foldl
    (fun mm i =>
      if mget mm i j ≠ 0 then
        mm.set i (rowElimFrom (mm.getD rank []) (mm.getD i [])
          (GaloisField.Divide (mget mm i j) (mget mm rank j)) j gs)
      else mm) m1

/-- One column step of CalculateRank: search a pivot at or below the
current rank, swap it up if needed, eliminate the column below it, and
increment the rank; without a pivot the state is unchanged. -/
def rankStep (gs : Nat) (s : List (List Nat) × Nat) (j : Nat) : List (List Nat) × Nat :=
  let m := s.1
  let rank := s.2
  let p := pivotScan m j gs rank
  if p < gs then
    let m1 := if p ≠ rank then listSwap m rank p else m
    let m2 := elimBelow gs j rank (List.range' (rank + 1) (gs - (rank + 1))) m1
    (m2, rank + 1)
  else (m, rank)

/-- NetworkCodingDecoder::CalculateRank: Gaussian forward elimination on a
copy of the coefficient matrix; the stored matrix is never written. -/
def CalculateRank (d : NetworkCodingDecoder) : Nat :=
  ((List.range d.generationSize).foldl (rankStep d.generationSize)
    (d.coefficients, 0)).2

/-- NetworkCodingDecoder::GetRank, a const method: the rank together with
the unchanged decoder. -/
def GetRank (d : NetworkCodingDecoder) : Nat × NetworkCodingDecoder :=
  (CalculateRank d, d)

/-- The boolean CanDecode test (rank equals generation size). -/
def CanDecodeB (d : NetworkCodingDecoder) : Bool :=
  CalculateRank d == d.generationSize

/-- NetworkCodingDecoder::CanDecode, a const method. -/
def CanDecode (d : NetworkCodingDecoder) : Bool × NetworkCodingDecoder :=
  (CanDecodeB d, d)

/-- The pivot search of DecodeGeneration at column i: the first row below
i with a nonzero entry in column i, or i itself when none exists. -/
def pivotFind (cm : List (List Nat)) (i gs : Nat) : Nat :=
  match (List.range' (i + 1) (gs - (i + 1))).find? (fun j => mget cm j i != 0) with
  | some j => j
  | none => i

/-- One outer step of the Gauss-Jordan elimination of DecodeGeneration on
the copied pair of matrices: pivot search, singular abort (none), row
swap, pivot normalization by the field inverse, and elimination of column
i from every other row, tracking coefficients and payloads together. -/
def decodeStep (gs ps : Nat) (s : Option (List (List Nat) × List (List Nat)))
    (i : Nat) : Option (List (List Nat) × List (List Nat)) :=
  match s with
  | none => none
  | some (cm0, pm0) =>
    let p := pivotFind cm0 i gs
    if mget cm0 p i = 0 then none
    else
      let cm1 := if p ≠ i then listSwap cm0 i p else cm0
      let pm1 := if p ≠ i then listSwap pm0 i p else pm0
      let pivot := mget cm1 i i
      if pivot = 0 then none
      else
        let pivotInv := GaloisField.Inverse pivot
        let cm2 := cm1.set i ((List.range gs).map fun j => GaloisField.Multiply (mget cm1 i j) pivotInv)
        let pm2 := pm1.set i ((List.range ps).map fun j => GaloisField.Multiply (mget pm1 i j) pivotInv)
        some ((List.range gs).foldl
          (fun (t : List (List Nat) × List (List Nat)) j =>
            if j ≠ i ∧ mget t.1 j i ≠ 0 then
              let factor := mget t.1 j i
              (t.1.set j ((List.range gs).map fun k =>
                  GaloisField.Subtract (mget t.1 j k) (GaloisField.Multiply factor (mget t.1 i k))),
               t.2.set j ((List.range ps).map fun k =>
                  GaloisField.Subtract (mget t.2 j k) (GaloisField.Multiply factor (mget t.2 i k))))
            else t) (cm2, pm2))

/-- The full Gauss-Jordan elimination of DecodeGeneration over copies of
the two matrices; none signals the singular-pivot abort. -/
def gaussElim (cm pm : List (List Nat)) (gs ps : Nat) :
    Option (List (List Nat) × List (List Nat)) :=
  (List.range gs).foldl (decodeStep gs ps) (some (cm, pm))

/-- NetworkCodingDecoder::DecodeGeneration: no-op when already decoded or
when the rank gate fails; otherwise runs the elimination on copies and,
only on success, installs the decoded packets (one per matrix row, in row
order) and sets the decoded flag.  The stored coefficient and payload
matrices are never written.  A singular pivot leaves the decoder exactly
as it was. -/
def DecodeGeneration (d : NetworkCodingDecoder) : NetworkCodingDecoder :=
  if d.decoded then d
  else if ¬ (CalculateRank d = d.generationSize) then d
  else
    match gaussElim d.coefficients d.codedPayloads d.generationSize d.packetSize with
    | none => d
    | some s =>
        { d with
          decodedPackets := (List.range d.generationSize).map fun i =>
            (List.range d.packetSize).map fun k => mget s.2 i k,
          decoded := true }

/-- NetworkCodingDecoder::GetDecodedPackets: lazily decodes when the rank
is full but decode has not run, then returns the cache. -/
def GetDecodedPackets (d : NetworkCodingDecoder) :
    List (List Nat) × NetworkCodingDecoder :=
  let d1 := if d.decoded = false ∧ CanDecodeB d then DecodeGeneration d else d
  (d1.decodedPackets, d1)

/-- The row-empty test of ProcessCodedPacket (all gs entries zero). -/
def rowEmptyB (m : List (List Nat)) (i gs : Nat) : Bool :=
  (List.range gs).all fun j => mget m i j == 0

/-- The first all-zero row of the coefficient matrix, if any. -/
def firstEmptyRow (m : List (List Nat)) (gs : Nat) : Option Nat :=
  (List.range gs).find? fun i => rowEmptyB m i gs

/-- NetworkCodingDecoder::ProcessCodedPacket.  Null packets and header
extraction failures are not representable in the model; the remaining
source checks appear in source order: already decoded, generation
mismatch, empty coefficient vector, then the coefficient vector is padded
to the generation size, the payload copied into a packetSize buffer, and
the pair stored into the first all-zero coefficient row (no such row:
reject).  After storing, a full rank triggers DecodeGeneration; the call
returns true whenever the row was stored. -/
def ProcessCodedPacket (d : NetworkCodingDecoder) (p : CodedPacket) :
    Bool × NetworkCodingDecoder :=
  if d.decoded then (false, d)
  else if p.header.generationId ≠ d.currentGeneration then (false, d)
  else if p.header.coefficients = [] then (false, d)
  else
    let padded := padTo p.header.coefficients d.generationSize
    let payload := padTo p.payload d.packetSize
    match firstEmptyRow d.coefficients d.generationSize with
    | none => (false, d)
    | some i =>
        let d1 := { d with coefficients := d.coefficients.set i padded,
                           codedPayloads := d.codedPayloads.set i payload }
        if CanDecodeB d1 then (true, DecodeGeneration d1) else (true, d1)

end ns3

namespace ns3

/-! ## Decoder claims (C5, C6, C7, C10) -/

theorem rankStep_snd_le (gs : Nat) (s : List (List Nat) × Nat) (j : Nat) :
    (rankStep gs s j).2 ≤ s.2 + 1 := by
  rcases Nat.lt_or_ge (pivotScan s.1 j gs s.2) gs with hp | hp
  · simp [rankStep, hp]
  · have hnp : ¬ pivotScan s.1 j gs s.2 < gs := by omega
    simp [rankStep, hnp]

theorem foldl_rankStep_le (gs : Nat) (l : List Nat) (s : List (List Nat) × Nat) :
    (l.foldl (rankStep gs) s).2 ≤ s.2 + l.length := by
  induction l generalizing s with
  | nil => simp
  | cons j t ih =>
      rw [List.foldl_cons]
      have h1 := ih (rankStep gs s j)
      have h2 := rankStep_snd_le gs s j
      simp only [List.length_cons]
      omega

theorem CalculateRank_le (d : NetworkCodingDecoder) :
    CalculateRank d ≤ d.generationSize := by
  have := foldl_rankStep_le d.generationSize (List.range d.generationSize)
    (d.coefficients, 0)
  simpa using this

/-- C10: GetRank and CanDecode are const queries: both return the decoder
state unchanged (the elimination runs on a copy of the coefficient
matrix), the rank lies between 0 and generationSize, and CanDecode holds
exactly when the rank equals generationSize. -/
theorem C10_rank_query (d : NetworkCodingDecoder) :
    (GetRank d).2 = d ∧
    (CanDecode d).2 = d ∧
    (GetRank d).1 ≤ d.generationSize ∧
    ((CanDecode d).1 = true ↔ (GetRank d).1 = d.generationSize) := by
  refine ⟨rfl, rfl, CalculateRank_le d, ?_⟩
  simp [CanDecode, CanDecodeB, GetRank]

/-- C6: once the decoded flag is set, ProcessCodedPacket returns false and
the whole decoder state (matrices, cache, flag, everything) is returned
unchanged. -/
theorem C6_decoded_idempotent (d : NetworkCodingDecoder) (p : CodedPacket)
    (h : d.decoded = true) :
    ProcessCodedPacket d p = (false, d) := by
  rw [ProcessCodedPacket, if_pos h]

/-- Witness for C6 on a 1-by-1 decoder whose decoded flag is set. -/
theorem C6_decoded_idempotent_witness :
    ({ mkDecoder 1 1 with decoded := true } : NetworkCodingDecoder).decoded = true ∧
    ProcessCodedPacket { mkDecoder 1 1 with decoded := true } { header := { generationId := 0, generationSize := 1, coefficients := [1] }, payload := [5] } = (false, { mkDecoder 1 1 with decoded := true }) :=
  ⟨rfl, C6_decoded_idempotent _ _ rfl⟩

/-- DecodeGeneration never writes the stored coefficient matrix or the
stored payload matrix (it eliminates on copies). -/
theorem DecodeGeneration_matrices (d : NetworkCodingDecoder) :
    (DecodeGeneration d).coefficients = d.coefficients ∧
    (DecodeGeneration d).codedPayloads = d.codedPayloads := by
  by_cases h1 : d.decoded <;>
    by_cases h2 : CalculateRank d = d.generationSize <;>
      rcases hg : gaussElim d.coefficients d.codedPayloads d.generationSize d.packetSize
        with _ | s <;>
        simp [DecodeGeneration, h1, h2, hg]

/-- C7: whenever the Gauss-Jordan elimination aborts on a pivot that
cannot be made nonzero (gaussElim returns none), DecodeGeneration leaves
the decoder exactly as it was: same matrices, same cache, and the decoded
flag keeps its old value, so an un-decoded decoder stays un-decoded.  (The
embedding is total, so no crash is possible.) -/
theorem C7_singular_pivot_atomic (d : NetworkCodingDecoder)
    (h : gaussElim d.coefficients d.codedPayloads d.generationSize d.packetSize = none) :
    DecodeGeneration d = d ∧ (DecodeGeneration d).decoded = d.decoded := by
  have hd : DecodeGeneration d = d := by
    by_cases h1 : d.decoded
    · simp [DecodeGeneration, h1]
    · by_cases h2 : CalculateRank d = d.generationSize
      · simp [DecodeGeneration, h1, h2, h]
      · simp [DecodeGeneration, h1, h2]
  exact ⟨hd, by rw [hd]⟩

/-- Witness for C7: the fresh 1-by-1 decoder holds the zero matrix, whose
elimination aborts at the first pivot, and DecodeGeneration leaves it
unchanged. -/
theorem C7_singular_pivot_atomic_witness :
    gaussElim (mkDecoder 1 1).coefficients (mkDecoder 1 1).codedPayloads
      (mkDecoder 1 1).generationSize (mkDecoder 1 1).packetSize = none ∧
    DecodeGeneration (mkDecoder 1 1) = mkDecoder 1 1 ∧
    (DecodeGeneration (mkDecoder 1 1)).decoded = (mkDecoder 1 1).decoded :=
  ⟨by rfl,
   (C7_singular_pivot_atomic (mkDecoder 1 1) (by rfl)).1,
   (C7_singular_pivot_atomic (mkDecoder 1 1) (by rfl)).2⟩

/-- C5: for every packet with a nonempty coefficient vector,
ProcessCodedPacket rejects (false, decoder unchanged) when already
decoded, when the generation id differs, or when no all-zero coefficient
row remains; otherwise it returns true and the stored matrices are the old
ones with the first all-zero row replaced by the padded coefficient vector
and the padded payload - whether or not the new row increases the rank
(no innovation check appears in any branch). -/
theorem C5_process_cases (d : NetworkCodingDecoder) (p : CodedPacket)
    (hcoef : p.header.coefficients ≠ []) :
    (d.decoded = true → ProcessCodedPacket d p = (false, d)) ∧
    (p.header.generationId ≠ d.currentGeneration → ProcessCodedPacket d p = (false, d)) ∧
    (d.decoded = false → p.header.generationId = d.currentGeneration →
      firstEmptyRow d.coefficients d.generationSize = none →
      ProcessCodedPacket d p = (false, d)) ∧
    (∀ i, d.decoded = false → p.header.generationId = d.currentGeneration →
      firstEmptyRow d.coefficients d.generationSize = some i →
      (ProcessCodedPacket d p).1 = true ∧
      (ProcessCodedPacket d p).2.coefficients =
        d.coefficients.set i (padTo p.header.coefficients d.generationSize) ∧
      (ProcessCodedPacket d p).2.codedPayloads =
        d.codedPayloads.set i (padTo p.payload d.packetSize)) := by
  refine ⟨?_, ?_, ?_, ?_⟩
  · intro h
    rw [ProcessCodedPacket, if_pos h]
  · intro h
    rw [ProcessCodedPacket]
    by_cases h1 : d.decoded
    · rw [if_pos h1]
    · rw [if_neg (by simp [h1]), if_pos h]
  · intro h1 h2 h3
    rw [ProcessCodedPacket, if_neg (by simp [h1]), if_neg (by simp [h2]), if_neg hcoef]
    simp [h3]
  · intro i h1 h2 h3
    have hrun : ProcessCodedPacket d p =
        (if CanDecodeB { d with
            coefficients := d.coefficients.set i (padTo p.header.coefficients d.generationSize),
            codedPayloads := d.codedPayloads.set i (padTo p.payload d.packetSize) }
         then (true, DecodeGeneration { d with
            coefficients := d.coefficients.set i (padTo p.header.coefficients d.generationSize),
            codedPayloads := d.codedPayloads.set i (padTo p.payload d.packetSize) })
         else (true, { d with
            coefficients := d.coefficients.set i (padTo p.header.coefficients d.generationSize),
            codedPayloads := d.codedPayloads.set i (padTo p.payload d.packetSize) })) := by
      rw [ProcessCodedPacket, if_neg (by simp [h1]), if_neg (by simp [h2]), if_neg hcoef]
      simp [h3]
    rw [hrun]
    by_cases hc : CanDecodeB { d with
        coefficients := d.coefficients.set i (padTo p.header.coefficients d.generationSize),
        codedPayloads := d.codedPayloads.set i (padTo p.payload d.packetSize) }
    · rw [if_pos hc]
      refine ⟨rfl, ?_, ?_⟩
      · rw [(DecodeGeneration_matrices _).1]
      · rw [(DecodeGeneration_matrices _).2]
    · rw [if_neg hc]
      exact ⟨rfl, rfl, rfl⟩

/-- Witness for C5 on a fresh 1-by-1 decoder and a generation-0 packet
with coefficient vector [1]. -/
theorem C5_process_cases_witness :
    ((mkDecoder 1 1).decoded = true → ProcessCodedPacket (mkDecoder 1 1) { header := { generationId := 0, generationSize := 1, coefficients := [1] }, payload := [5] } = (false, mkDecoder 1 1)) ∧
    (({ generationId := 0, generationSize := 1, coefficients := [1] } : NetworkCodingHeader).generationId ≠ (mkDecoder 1 1).currentGeneration → ProcessCodedPacket (mkDecoder 1 1) { header := { generationId := 0, generationSize := 1, coefficients := [1] }, payload := [5] } = (false, mkDecoder 1 1)) ∧
    ((mkDecoder 1 1).decoded = false → ({ generationId := 0, generationSize := 1, coefficients := [1] } : NetworkCodingHeader).generationId = (mkDecoder 1 1).currentGeneration →
      firstEmptyRow (mkDecoder 1 1).coefficients (mkDecoder 1 1).generationSize = none →
      ProcessCodedPacket (mkDecoder 1 1) { header := { generationId := 0, generationSize := 1, coefficients := [1] }, payload := [5] } = (false, mkDecoder 1 1)) ∧
    (∀ i, (mkDecoder 1 1).decoded = false → ({ generationId := 0, generationSize := 1, coefficients := [1] } : NetworkCodingHeader).generationId = (mkDecoder 1 1).currentGeneration →
      firstEmptyRow (mkDecoder 1 1).coefficients (mkDecoder 1 1).generationSize = some i →
      (ProcessCodedPacket (mkDecoder 1 1) { header := { generationId := 0, generationSize := 1, coefficients := [1] }, payload := [5] }).1 = true ∧
      (ProcessCodedPacket (mkDecoder 1 1) { header := { generationId := 0, generationSize := 1, coefficients := [1] }, payload := [5] }).2.coefficients =
        (mkDecoder 1 1).coefficients.set i (padTo [1] (mkDecoder 1 1).generationSize) ∧
      (ProcessCodedPacket (mkDecoder 1 1) { header := { generationId := 0, generationSize := 1, coefficients := [1] }, payload := [5] }).2.codedPayloads =
        (mkDecoder 1 1).codedPayloads.set i (padTo [5] (mkDecoder 1 1).packetSize)) :=
  C5_process_cases (mkDecoder 1 1) { header := { generationId := 0, generationSize := 1, coefficients := [1] }, payload := [5] } (by simp)

end ns3

namespace ns3

/-! ## The byte field as a type

For the linear-algebra arguments behind the round-trip claim the byte
operations are packaged as a field structure on the 256 byte values.  The
operations are the packed forms, which are pointwise equal to the source
operations by Multiply_eq, Divide_eq and Inverse_eq. -/

/-- A GF(2^8) element: a byte value. -/
structure GFb where
  val : Nat
  lt : val < 256
deriving DecidableEq

theorem GFb.eq_of_val {a b : GFb} (h : a.val = b.val) : a = b := by
  cases a
  cases b
  simpa using h

theorem IP_le (a : Nat) : InverseP a ≤ 255 := by
  by_cases h : a = 0
  · simp [h, IP_zero]
  · rw [InverseP, if_neg h]
    exact gfExpP_le _

instance : Zero GFb := ⟨⟨0, by norm_num⟩⟩

instance : One GFb := ⟨⟨1, by norm_num⟩⟩

instance : Add GFb := ⟨fun a b => ⟨a.val ^^^ b.val, xor_lt_256 a.lt b.lt⟩⟩

instance : Mul GFb := ⟨fun a b => ⟨MultiplyP a.val b.val, by have := MP_le a.val b.val; omega⟩⟩

instance : Neg GFb := ⟨fun a => a⟩

instance : Inv GFb := ⟨fun a => ⟨InverseP a.val, by have := IP_le a.val; omega⟩⟩

theorem GFb.val_zero : (0 : GFb).val = 0 := rfl

theorem GFb.val_one : (1 : GFb).val = 1 := rfl

theorem GFb.val_add (a b : GFb) : (a + b).val = a.val ^^^ b.val := rfl

theorem GFb.val_mul (a b : GFb) : (a * b).val = MultiplyP a.val b.val := rfl

theorem GFb.val_inv (a : GFb) : (a⁻¹).val = InverseP a.val := rfl

theorem GFb.neg_def (a : GFb) : -a = a := rfl

instance : CommRing GFb where
  add := (· + ·)
  add_assoc a b c := GFb.eq_of_val (Nat.xor_assoc a.val b.val c.val)
  zero := 0
  zero_add a := GFb.eq_of_val (Nat.zero_xor a.val)
  add_zero a := GFb.eq_of_val (Nat.xor_zero a.val)
  add_comm a b := GFb.eq_of_val (Nat.xor_comm a.val b.val)
  neg := Neg.neg
  neg_add_cancel a := GFb.eq_of_val (Nat.xor_self a.val)
  nsmul := nsmulRec
  zsmul := zsmulRec
  mul := (· * ·)
  mul_assoc a b c := GFb.eq_of_val (MP_assoc a.val b.val c.val)
  one := 1
  one_mul a := GFb.eq_of_val (MP_one_left a.lt)
  mul_one a := GFb.eq_of_val (MP_one_right a.lt)
  left_distrib a b c := GFb.eq_of_val (MP_distrib a.lt b.lt c.lt)
  right_distrib a b c := GFb.eq_of_val (by
    show MultiplyP (a.val ^^^ b.val) c.val = MultiplyP a.val c.val ^^^ MultiplyP b.val c.val
    rw [MP_comm, MP_distrib c.lt a.lt b.lt, MP_comm c.val a.val, MP_comm c.val b.val])
  mul_comm a b := GFb.eq_of_val (MP_comm a.val b.val)
  zero_mul a := GFb.eq_of_val (MP_zero_left a.val)
  mul_zero a := GFb.eq_of_val (MP_zero_right a.val)

theorem GFb.val_ne_zero {a : GFb} (h : a ≠ 0) : a.val ≠ 0 := by
  intro hv
  exact h (GFb.eq_of_val (show a.val = (0 : GFb).val from hv))

instance : Field GFb where
  inv := Inv.inv
  exists_pair_ne := ⟨0, 1, by
    intro h
    have := congrArg GFb.val h
    simp [GFb.val_zero, GFb.val_one] at this⟩
  mul_inv_cancel a h := GFb.eq_of_val (show (a * a⁻¹).val = (1 : GFb).val from
    MP_inv (GFb.val_ne_zero h) a.lt)
  inv_zero := GFb.eq_of_val (show InverseP (0 : GFb).val = (0 : GFb).val from IP_zero)
  nnqsmul := _
  qsmul := _

/-- In characteristic two every element is its own negative; subtraction
is addition. -/
theorem GFb.sub_eq_add (a b : GFb) : a - b = a + b := by
  rw [sub_eq_add_neg, GFb.neg_def]

end ns3

namespace ns3

/-! ## Byte matrices as GFb matrices -/

/-- A byte as a field element (total: non-bytes collapse to 0; every value
read out of a well-formed matrix is a byte). -/
def byteOf (x : Nat) : GFb :=
  if h : x < 256 then ⟨x, h⟩ else 0

/-- The byte matrix m, of shape R by C, as a GFb matrix. -/
def toMatG (R C : Nat) (m : List (List Nat)) : Matrix (Fin R) (Fin C) GFb :=
  Matrix.of fun i j => byteOf (mget m i.val j.val)

/-- Shape of a byte matrix: row count and a uniform column count. -/
def MatDims (m : List (List Nat)) (rows cols : Nat) : Prop :=
  m.length = rows ∧ ∀ r ∈ m, r.length = cols

/-- Every entry of every row is a byte. -/
def MatBytes (m : List (List Nat)) : Prop :=
  ∀ r ∈ m, ∀ x ∈ r, x < 256

theorem byteOf_val {x : Nat} (h : x < 256) : (byteOf x).val = x := by
  rw [byteOf, dif_pos h]

theorem byteOf_zero : byteOf 0 = 0 := rfl

theorem byteOf_eq_zero {x : Nat} (hx : x < 256) : byteOf x = 0 ↔ x = 0 := by
  constructor
  · intro h
    have := congrArg GFb.val h
    rwa [byteOf_val hx, GFb.val_zero] at this
  · intro h
    rw [h, byteOf_zero]

theorem getD_set_ne {α : Type} (l : List α) (i j : Nat) (a d : α) (h : i ≠ j) :
    (l.set i a).getD j d = l.getD j d := by
  simp [List.getD_eq_getElem?_getD, List.getElem?_set_ne h]

theorem getD_set_self {α : Type} (l : List α) (i : Nat) (a d : α) (h : i < l.length) :
    (l.set i a).getD i d = a := by
  simp [List.getD_eq_getElem?_getD, List.getElem?_set_self, h]

theorem mget_bytes {m : List (List Nat)} (hb : MatBytes m) (r c : Nat) :
    mget m r c < 256 := by
  rw [mget]
  rcases Nat.lt_or_ge r m.length with hr | hr
  · have hmem : m.getD r [] ∈ m := by
      rw [List.getD_eq_getElem?_getD, List.getElem?_eq_getElem hr]
      exact List.getElem_mem hr
    rcases Nat.lt_or_ge c (m.getD r []).length with hc | hc
    · have hcm : (m.getD r []).getD c 0 ∈ m.getD r [] := by
        rw [List.getD_eq_getElem?_getD (m.getD r []), List.getElem?_eq_getElem hc]
        exact List.getElem_mem hc
      exact hb _ hmem _ hcm
    · rw [List.getD_eq_default _ _ hc]
      norm_num
  · rw [List.getD_eq_default _ _ hr]
    simp [List.getD]

theorem toMatG_val {R C : Nat} {m : List (List Nat)} (hb : MatBytes m)
    (i : Fin R) (j : Fin C) : (toMatG R C m i j).val = mget m i.val j.val := by
  rw [toMatG, Matrix.of_apply, byteOf_val (mget_bytes hb _ _)]

/-- mget after a row write. -/
theorem mget_set {m : List (List Nat)} {i : Nat} (hi : i < m.length)
    (row : List Nat) (r c : Nat) :
    mget (m.set i row) r c = if r = i then row.getD c 0 else mget m r c := by
  by_cases h : r = i
  · rw [if_pos h, h, mget, getD_set_self m i row [] hi]
  · rw [if_neg h, mget, mget, getD_set_ne m i r row [] (fun he => h he.symm)]

/-- The row-index view of a swap. -/
def swapIdx (a b r : Nat) : Nat :=
  if r = a then b else if r = b then a else r

theorem mget_listSwap {m : List (List Nat)} {a b : Nat}
    (ha : a < m.length) (hb : b < m.length) (r c : Nat) :
    mget (listSwap m a b) r c = mget m (swapIdx a b r) c := by
  rw [listSwap, swapIdx]
  by_cases hrb : r = b
  · subst hrb
    rw [mget, getD_set_self _ _ _ _ (by rw [List.length_set]; exact hb)]
    by_cases hra : r = a
    · subst hra
      rw [if_pos rfl, mget]
    · rw [if_neg hra, if_pos rfl, mget]
  · by_cases hra : r = a
    · subst hra
      rw [mget, getD_set_ne _ _ _ _ _ (fun he => hrb he.symm),
        getD_set_self _ _ _ _ ha, if_pos rfl, mget]
    · rw [mget, getD_set_ne _ _ _ _ _ (fun he => hrb he.symm),
        getD_set_ne _ _ _ _ _ (fun he => hra he.symm), if_neg hra, if_neg hrb, mget]

theorem listSwap_length (m : List (List Nat)) (a b : Nat) :
    (listSwap m a b).length = m.length := by
  rw [listSwap]
  simp

theorem MatDims_listSwap {m : List (List Nat)} {rows cols a b : Nat}
    (hd : MatDims m rows cols) (ha : a < m.length) (hb : b < m.length) :
    MatDims (listSwap m a b) rows cols := by
  obtain ⟨hlen, hrow⟩ := hd
  refine ⟨by rw [listSwap_length, hlen], ?_⟩
  intro r hr
  rw [listSwap] at hr
  rcases List.mem_or_eq_of_mem_set hr with hr2 | hr2
  · rcases List.mem_or_eq_of_mem_set hr2 with hr3 | hr3
    · exact hrow r hr3
    · subst hr3
      apply hrow
      rw [List.getD_eq_getElem?_getD, List.getElem?_eq_getElem hb]
      exact List.getElem_mem hb
  · subst hr2
    apply hrow
    rw [List.getD_eq_getElem?_getD, List.getElem?_eq_getElem ha]
    exact List.getElem_mem ha

theorem MatBytes_listSwap {m : List (List Nat)} {a b : Nat}
    (hb0 : MatBytes m) (ha : a < m.length) (hb : b < m.length) :
    MatBytes (listSwap m a b) := by
  intro r hr
  rw [listSwap] at hr
  rcases List.mem_or_eq_of_mem_set hr with hr2 | hr2
  · rcases List.mem_or_eq_of_mem_set hr2 with hr3 | hr3
    · exact hb0 r hr3
    · subst hr3
      apply hb0
      rw [List.getD_eq_getElem?_getD, List.getElem?_eq_getElem hb]
      exact List.getElem_mem hb
  · subst hr2
    apply hb0
    rw [List.getD_eq_getElem?_getD, List.getElem?_eq_getElem ha]
    exact List.getElem_mem ha

theorem MatDims_set {m : List (List Nat)} {rows cols i : Nat} {row : List Nat}
    (hd : MatDims m rows cols) (hr : row.length = cols) :
    MatDims (m.set i row) rows cols := by
  obtain ⟨hlen, hrow⟩ := hd
  refine ⟨by rw [List.length_set, hlen], ?_⟩
  intro r hrm
  rcases List.mem_or_eq_of_mem_set hrm with h2 | h2
  · exact hrow r h2
  · subst h2
    exact hr

theorem MatBytes_set {m : List (List Nat)} {i : Nat} {row : List Nat}
    (hb : MatBytes m) (hr : ∀ x ∈ row, x < 256) :
    MatBytes (m.set i row) := by
  intro r hrm
  rcases List.mem_or_eq_of_mem_set hrm with h2 | h2
  · exact hb r h2
  · subst h2
    exact hr

end ns3

namespace ns3

/-! ## Determinant tools over GFb -/

theorem GFb.int_units_cast_mul (u : ℤˣ) (x : GFb) : ((u : ℤ) : GFb) * x = x := by
  rcases Int.units_eq_one_or u with h | h <;> rw [h]
  · simp
  · push_cast
    simp [GFb.neg_def]

/-- If every entry with row index at least j and column index at most j
vanishes, the determinant vanishes: every permutation must send some
column at most j to a row at least j. -/
theorem det_zero_of_lower_zero {n : Nat} (M : Matrix (Fin n) (Fin n) GFb) (j : Nat)
    (hj : j < n) (h : ∀ r c : Fin n, j ≤ r.val → c.val ≤ j → M r c = 0) :
    M.det = 0 := by
  rw [Matrix.det_apply]
  apply Finset.sum_eq_zero
  intro σ _
  suffices hex : ∃ i : Fin n, i.val ≤ j ∧ j ≤ (σ i).val by
    obtain ⟨i, hi1, hi2⟩ := hex
    have hzero : M (σ i) i = 0 := h (σ i) i hi2 hi1
    have hprod : (∏ k : Fin n, M (σ k) k) = 0 :=
      Finset.prod_eq_zero (Finset.mem_univ i) hzero
    rw [hprod, smul_zero]
  by_contra hcon
  push_neg at hcon
  have hφ : ∀ i : Fin (j + 1), (σ ⟨i.val, by omega⟩).val < j := by
    intro i
    exact hcon ⟨i.val, by omega⟩ (by simp; omega)
  have hinj : Function.Injective
      (fun i : Fin (j + 1) => (⟨(σ ⟨i.val, by omega⟩).val, hφ i⟩ : Fin j)) := by
    intro a b hab
    have h1 : (σ ⟨a.val, by omega⟩).val = (σ ⟨b.val, by omega⟩).val := by
      simpa [Fin.ext_iff] using hab
    have h2 : (⟨a.val, by omega⟩ : Fin n) = ⟨b.val, by omega⟩ :=
      σ.injective (Fin.ext h1)
    have := Fin.mk.injEq (n := n) a.val (by omega) b.val (by omega) ▸ h2
    exact Fin.ext (by simpa using h2)
  have hcard := Fintype.card_le_of_injective _ hinj
  simp at hcard

/-- An upper-triangular matrix with nonzero diagonal has nonzero
determinant. -/
theorem det_triangular_ne_zero {n : Nat} (M : Matrix (Fin n) (Fin n) GFb)
    (hlow : ∀ r c : Fin n, c.val < r.val → M r c = 0)
    (hdiag : ∀ i : Fin n, M i i ≠ 0) : M.det ≠ 0 := by
  have htri : M.BlockTriangular id := by
    intro i j hij
    exact hlow i j hij
  rw [Matrix.det_of_upperTriangular htri]
  exact Finset.prod_ne_zero_iff.mpr fun i _ => hdiag i

theorem toMatG_listSwap {N : Nat} {m : List (List Nat)} (hlen : m.length = N)
    (a b : Fin N) :
    toMatG N N (listSwap m a.val b.val) =
      (toMatG N N m).submatrix (Equiv.swap a b) id := by
  funext r c
  rw [toMatG, Matrix.of_apply, Matrix.submatrix_apply, toMatG, Matrix.of_apply,
    mget_listSwap (by omega) (by omega)]
  congr 2
  rw [Equiv.swap_apply_def, swapIdx]
  by_cases hra : r.val = a.val <;> by_cases hrb : r.val = b.val <;>
    simp_all [Fin.ext_iff]

theorem det_toMatG_listSwap {N : Nat} {m : List (List Nat)} (hlen : m.length = N)
    (a b : Fin N) :
    (toMatG N N (listSwap m a.val b.val)).det = (toMatG N N m).det := by
  rw [toMatG_listSwap hlen a b, Matrix.det_permute]
  exact GFb.int_units_cast_mul _ _

end ns3

namespace ns3

/-! ## Characterizing the pivot scan of CalculateRank -/

theorem pivotScan_props (m : List (List Nat)) (j gs : Nat) :
    ∀ fuel r0, gs ≤ r0 + fuel →
      r0 ≤ pivotScan m j gs r0 ∧
      (r0 ≤ gs → pivotScan m j gs r0 ≤ gs) ∧
      (pivotScan m j gs r0 < gs → mget m (pivotScan m j gs r0) j ≠ 0) ∧
      (∀ r, r0 ≤ r → r < pivotScan m j gs r0 → mget m r j = 0) := by
  intro fuel
  induction fuel with
  | zero =>
      intro r0 hge
      have hnl : ¬ r0 < gs := by omega
      rw [pivotScan, if_neg hnl]
      exact ⟨Nat.le_refl _, fun h => by omega, fun h => absurd h hnl, fun r h1 h2 => by omega⟩
  | succ k ih =>
      intro r0 hge
      by_cases hlt : r0 < gs
      · by_cases hz : mget m r0 j = 0
        · have heq : pivotScan m j gs r0 = pivotScan m j gs (r0 + 1) := by
            rw [pivotScan, if_pos hlt, if_pos hz]
          obtain ⟨ih1, ih2, ih3, ih4⟩ := ih (r0 + 1) (by omega)
          rw [heq]
          refine ⟨by omega, fun _ => ih2 (by omega), ih3, ?_⟩
          intro r h1 h2
          rcases Nat.eq_or_lt_of_le h1 with h3 | h3
          · rw [← h3]; exact hz
          · exact ih4 r h3 h2
        · have heq : pivotScan m j gs r0 = r0 := by
            rw [pivotScan, if_pos hlt, if_neg hz]
          rw [heq]
          exact ⟨Nat.le_refl _, fun _ => by omega, fun _ => hz, fun r h1 h2 => by omega⟩
      · rw [pivotScan, if_neg hlt]
        exact ⟨Nat.le_refl _, fun h => by omega, fun h => absurd h hlt, fun r h1 h2 => by omega⟩

theorem rankStep_mono (gs : Nat) (s : List (List Nat) × Nat) (j : Nat) :
    s.2 ≤ (rankStep gs s j).2 := by
  rcases Nat.lt_or_ge (pivotScan s.1 j gs s.2) gs with hp | hp
  · simp [rankStep, hp]
  · have hnp : ¬ pivotScan s.1 j gs s.2 < gs := by omega
    simp [rankStep, hnp]

theorem rankStep_found (gs : Nat) (s : List (List Nat) × Nat) (j : Nat)
    (h : pivotScan s.1 j gs s.2 < gs) :
    (rankStep gs s j).2 = s.2 + 1 := by
  simp [rankStep, h]

theorem rankStep_miss (gs : Nat) (s : List (List Nat) × Nat) (j : Nat)
    (h : ¬ pivotScan s.1 j gs s.2 < gs) :
    rankStep gs s j = s := by
  simp [rankStep, h]

/-! ## Field facts for the elimination arithmetic -/

/-- Multiply after Divide cancels (the factor-times-pivot computation that
zeroes an eliminated entry). -/
theorem MP_DP_cancel {x p : Nat} (hx : x < 256) (hp0 : p ≠ 0) (hp : p < 256) :
    MultiplyP (DivideP x p) p = x := by
  by_cases hx0 : x = 0
  · rw [hx0, DP_a_zero hp0, MP_zero_left]
  · have hlx := gfLogP_lt x
    have hlp := gfLogP_lt p
    have hdnz : DivideP x p ≠ 0 := by
      rw [DP_nat_form hx0 hp0]
      exact exp_ne_zero (Nat.mod_lt _ (by norm_num))
    rw [MP_nonzero hdnz hp0, DP_nat_form hx0 hp0,
      log_exp (Nat.mod_lt _ (by norm_num))]
    have harg : ((gfLogP x + 255 - gfLogP p) % 255 + gfLogP p) % 255 = gfLogP x := by
      omega
    rw [harg]
    exact exp_log hx0 hx

/-- byteOf carries the elimination update into field arithmetic. -/
theorem byteOf_elim {x f y : Nat} (hx : x < 256) (hf : f < 256) (hy : y < 256) :
    byteOf (GaloisField.Subtract x (GaloisField.Multiply f y)) =
      byteOf x + byteOf f * byteOf y := by
  apply GFb.eq_of_val
  rw [GFb.val_add, GFb.val_mul, byteOf_val hx, byteOf_val hf, byteOf_val hy,
    GaloisField.Subtract, GaloisField.Add, Multiply_eq]
  have hmul := MP_le f y
  exact byteOf_val (xor_lt_256 hx (by omega))

/-- byteOf carries the normalization update into field arithmetic. -/
theorem byteOf_mul {x y : Nat} (hx : x < 256) (hy : y < 256) :
    byteOf (GaloisField.Multiply x y) = byteOf x * byteOf y := by
  apply GFb.eq_of_val
  rw [GFb.val_mul, byteOf_val hx, byteOf_val hy, Multiply_eq]
  have hmul := MP_le x y
  exact byteOf_val (by omega)

theorem Subtract_lt {x y : Nat} (hx : x < 256) (hy : y < 256) :
    GaloisField.Subtract x y < 256 := by
  rw [GaloisField.Subtract, GaloisField.Add]
  exact xor_lt_256 hx hy

theorem Multiply_lt (x y : Nat) : GaloisField.Multiply x y < 256 := by
  rw [Multiply_eq]
  have := MP_le x y
  omega

end ns3

namespace ns3

/-! ## The row update of CalculateRank, entrywise -/

theorem DP_le (a b : Nat) : DivideP a b ≤ 255 := by
  by_cases hb : b = 0
  · simp [hb, DP_b_zero]
  · by_cases ha : a = 0
    · simp [ha, DP_a_zero hb]
    · rw [DP_nat_form ha hb]
      exact gfExpP_le _

theorem Divide_lt (a b : Nat) : GaloisField.Divide a b < 256 := by
  rw [Divide_eq]
  have := DP_le a b
  omega

theorem getD_row_mem {m : List (List Nat)} {i : Nat} (h : i < m.length) :
    m.getD i [] ∈ m := by
  rw [List.getD_eq_getElem?_getD, List.getElem?_eq_getElem h]
  exact List.getElem_mem h

theorem mem_lt_of_getD {r : List Nat} (h : ∀ c, r.getD c 0 < 256) :
    ∀ x ∈ r, x < 256 := by
  intro x hx
  obtain ⟨k, hk, hkx⟩ := List.mem_iff_getElem.mp hx
  have := h k
  rwa [List.getD_eq_getElem?_getD, List.getElem?_eq_getElem hk,
    Option.getD_some, hkx] at this

theorem rowElimFrom_aux (pivotRow : List Nat) (factor : Nat) :
    ∀ (n start : Nat) (row : List Nat), start + n ≤ row.length →
      ∀ c, ((List.range' start n).foldl
          (fun r k => r.set k (GaloisField.Subtract (r.getD k 0)
            (GaloisField.Multiply factor (pivotRow.getD k 0)))) row).getD c 0 =
        if start ≤ c ∧ c < start + n then
          GaloisField.Subtract (row.getD c 0)
            (GaloisField.Multiply factor (pivotRow.getD c 0))
        else row.getD c 0 := by
  intro n
  induction n with
  | zero =>
      intro start row hlen c
      have h0 : List.range' start 0 = [] := rfl
      rw [h0, List.foldl_nil, if_neg (by omega)]
  | succ n ih =>
      intro start row hlen c
      rw [List.range'_succ, List.foldl_cons]
      have hstart : start < row.length := by omega
      have hlen2 : start + 1 + n ≤ (row.set start (GaloisField.Subtract (row.getD start 0)
          (GaloisField.Multiply factor (pivotRow.getD start 0)))).length := by
        rw [List.length_set]
        omega
      rw [ih (start + 1) _ hlen2 c]
      by_cases hc : c = start
      · subst hc
        have h1 : ¬ (c + 1 ≤ c ∧ c < c + 1 + n) := by omega
        have h2 : c ≤ c ∧ c < c + (n + 1) := by omega
        rw [if_neg h1, if_pos h2, getD_set_self _ _ _ _ hstart]
      · have hne : (row.set start (GaloisField.Subtract (row.getD start 0)
            (GaloisField.Multiply factor (pivotRow.getD start 0)))).getD c 0 =
            row.getD c 0 :=
          getD_set_ne _ _ _ _ _ (fun he => hc he.symm)
        by_cases h1 : start + 1 ≤ c ∧ c < start + 1 + n
        · rw [if_pos h1, if_pos (by omega), hne]
        · rw [if_neg h1, hne, if_neg (by omega)]

theorem rowElimFrom_getD {pivotRow row : List Nat} {factor j gs : Nat}
    (hj : j ≤ gs) (hrow : row.length = gs) (c : Nat) :
    (rowElimFrom pivotRow row factor j gs).getD c 0 =
      if j ≤ c ∧ c < gs then
        GaloisField.Subtract (row.getD c 0)
          (GaloisField.Multiply factor (pivotRow.getD c 0))
      else row.getD c 0 := by
  rw [rowElimFrom, rowElimFrom_aux pivotRow factor (gs - j) j row (by omega) c]
  congr 1
  simp only [eq_iff_iff]
  omega

theorem rowElimFrom_length (pivotRow row : List Nat) (factor j gs : Nat) :
    (rowElimFrom pivotRow row factor j gs).length = row.length := by
  rw [rowElimFrom]
  generalize List.range' j (gs - j) = l
  induction l generalizing row with
  | nil => rfl
  | cons k t ih =>
      rw [List.foldl_cons, ih, List.length_set]

theorem rowElimFrom_bytes {pivotRow row : List Nat} {factor j gs : Nat}
    (hj : j ≤ gs) (hrow : row.length = gs) (hb : ∀ c, row.getD c 0 < 256) :
    ∀ x ∈ rowElimFrom pivotRow row factor j gs, x < 256 := by
  apply mem_lt_of_getD
  intro c
  rw [rowElimFrom_getD hj hrow c]
  by_cases h : j ≤ c ∧ c < gs
  · rw [if_pos h]
    exact Subtract_lt (hb c) (Multiply_lt _ _)
  · rw [if_neg h]
    exact hb c

end ns3

namespace ns3

/-! ## The elimination fold of CalculateRank as row operations -/

theorem toMatG_set_elim {gs j rank i : Nat} {mm : List (List Nat)}
    (hdim : MatDims mm gs gs) (hbytes : MatBytes mm) (hj : j ≤ gs)
    (higs : i < gs) (hrkgs : rank < gs) (hrki : rank ≠ i)
    (hzero : ∀ c, c < j → mget mm rank c = 0) :
    toMatG gs gs (mm.set i (rowElimFrom (mm.getD rank []) (mm.getD i [])
        (GaloisField.Divide (mget mm i j) (mget mm rank j)) j gs)) =
      (toMatG gs gs mm).updateRow ⟨i, higs⟩
        ((toMatG gs gs mm) ⟨i, higs⟩ +
          byteOf (GaloisField.Divide (mget mm i j) (mget mm rank j)) •
            (toMatG gs gs mm) ⟨rank, hrkgs⟩) := by
  have hmlen : mm.length = gs := hdim.1
  have hrowlen : (mm.getD i []).length = gs := hdim.2 _ (getD_row_mem (by omega))
  funext r c
  by_cases hri : r = (⟨i, higs⟩ : Fin gs)
  · subst hri
    rw [Matrix.updateRow_self]
    show byteOf (mget (mm.set i _) i c.val) = _
    rw [mget_set (by omega), if_pos rfl, rowElimFrom_getD hj hrowlen c.val]
    have hic : (mm.getD i []).getD c.val 0 = mget mm i c.val := rfl
    have hrc : (mm.getD rank []).getD c.val 0 = mget mm rank c.val := rfl
    by_cases hcj : j ≤ c.val
    · rw [if_pos ⟨hcj, c.isLt⟩, hic, hrc,
        byteOf_elim (mget_bytes hbytes _ _) (Divide_lt _ _) (mget_bytes hbytes _ _)]
      rfl
    · rw [if_neg (by omega), hic]
      have h0 : mget mm rank c.val = 0 := hzero c.val (by omega)
      show byteOf (mget mm i c.val) =
        byteOf (mget mm i c.val) + byteOf _ * byteOf (mget mm rank c.val)
      rw [h0, byteOf_zero, mul_zero, add_zero]
  · rw [Matrix.updateRow_ne hri]
    show byteOf (mget (mm.set i _) r.val c.val) = byteOf (mget mm r.val c.val)
    rw [mget_set (by omega), if_neg (fun he => hri (Fin.ext he))]

theorem elimBelow_spec (gs j rank : Nat) (m1 : List (List Nat))
    (hj : j < gs) (hrk : rank < gs)
    (hpleft : ∀ c, c < j → mget m1 rank c = 0)
    (hpiv : mget m1 rank j ≠ 0) :
    ∀ (l : List Nat), (∀ i ∈ l, rank < i ∧ i < gs) →
    ∀ (mm : List (List Nat)),
      MatDims mm gs gs → MatBytes mm →
      (∀ c, c < j → ∀ r, mget mm r c = mget m1 r c) →
      (∀ c, mget mm rank c = mget m1 rank c) →
      (toMatG gs gs mm).det = (toMatG gs gs m1).det →
      MatDims (elimBelow gs j rank l mm) gs gs ∧
      MatBytes (elimBelow gs j rank l mm) ∧
      (∀ c, c < j → ∀ r, mget (elimBelow gs j rank l mm) r c = mget m1 r c) ∧
      (∀ c, mget (elimBelow gs j rank l mm) rank c = mget m1 rank c) ∧
      (toMatG gs gs (elimBelow gs j rank l mm)).det = (toMatG gs gs m1).det ∧
      (∀ r, mget mm r j = 0 → mget (elimBelow gs j rank l mm) r j = 0) ∧
      (∀ i ∈ l, mget (elimBelow gs j rank l mm) i j = 0) := by
  intro l
  induction l with
  | nil =>
      intro _ mm h1 h2 h3 h4 h5
      exact ⟨h1, h2, h3, h4, h5, fun r h => h, fun i hi => absurd hi (List.not_mem_nil i)⟩
  | cons i t ih =>
      intro hl mm hdim hbytes hcols hrank hdet
      obtain ⟨hrit, hit⟩ := hl i (List.mem_cons_self i t)
      have hml : mm.length = gs := hdim.1
      have hrowlen : (mm.getD i []).length = gs := hdim.2 _ (getD_row_mem (by omega))
      have helim : elimBelow gs j rank (i :: t) mm =
          elimBelow gs j rank t (if mget mm i j ≠ 0 then
            mm.set i (rowElimFrom (mm.getD rank []) (mm.getD i [])
              (GaloisField.Divide (mget mm i j) (mget mm rank j)) j gs)
          else mm) := by
        rw [elimBelow, List.foldl_cons, ← elimBelow]
      by_cases hg : mget mm i j ≠ 0
      · set f := GaloisField.Divide (mget mm i j) (mget mm rank j) with hf
        set newRow := rowElimFrom (mm.getD rank []) (mm.getD i []) f j gs with hnr
        have hnewlen : newRow.length = gs := by
          rw [hnr, rowElimFrom_length, hrowlen]
        have hmm' : elimBelow gs j rank (i :: t) mm = elimBelow gs j rank t (mm.set i newRow) := by
          rw [helim, if_pos hg]
        have hd' : MatDims (mm.set i newRow) gs gs := MatDims_set hdim hnewlen
        have hb' : MatBytes (mm.set i newRow) := by
          apply MatBytes_set hbytes
          apply rowElimFrom_bytes (by omega) hrowlen
          intro c
          exact mget_bytes hbytes i c
        have hset : ∀ r c, mget (mm.set i newRow) r c =
            if r = i then newRow.getD c 0 else mget mm r c := by
          intro r c
          exact mget_set (by omega) newRow r c
        have hnewGet : ∀ c, newRow.getD c 0 =
            if j ≤ c ∧ c < gs then
              GaloisField.Subtract (mget mm i c) (GaloisField.Multiply f (mget mm rank c))
            else mget mm i c := by
          intro c
          rw [hnr, rowElimFrom_getD (by omega) hrowlen c]
          rfl
        have hcols' : ∀ c, c < j → ∀ r, mget (mm.set i newRow) r c = mget m1 r c := by
          intro c hc r
          rw [hset]
          by_cases hr : r = i
          · rw [if_pos hr, hnewGet, if_neg (by omega), hr]
            exact hcols c hc i
          · rw [if_neg hr]
            exact hcols c hc r
        have hrank' : ∀ c, mget (mm.set i newRow) rank c = mget m1 rank c := by
          intro c
          rw [hset, if_neg (by omega)]
          exact hrank c
        have hdet' : (toMatG gs gs (mm.set i newRow)).det = (toMatG gs gs m1).det := by
          rw [hnr, hf, toMatG_set_elim hdim hbytes (by omega) (by omega) hrk (by omega)
            (fun c hc => by rw [hrank c]; exact hpleft c hc)]
          rw [Matrix.det_updateRow_add_smul_self _ (by
            intro he
            have := congrArg Fin.val he
            simp at this
            omega) _]
          exact hdet
        have hzkeep : ∀ r, mget mm r j = 0 → mget (mm.set i newRow) r j = 0 := by
          intro r hr
          rw [hset]
          by_cases hri : r = i
          · rw [hri] at hr
            exact absurd hr hg
          · rw [if_neg hri]
            exact hr
        have hizero : mget (mm.set i newRow) i j = 0 := by
          rw [hset, if_pos rfl, hnewGet, if_pos ⟨Nat.le_refl j, by omega⟩]
          rw [GaloisField.Subtract, GaloisField.Add, hf, Multiply_eq, Divide_eq,
            MP_DP_cancel (mget_bytes hbytes i j) (by rw [hrank j]; exact hpiv)
              (mget_bytes hbytes rank j)]
          exact Nat.xor_self _
        obtain ⟨ih1, ih2, ih3, ih4, ih5, ih6, ih7⟩ :=
          ih (fun x hx => hl x (List.mem_cons_of_mem i hx)) (mm.set i newRow)
            hd' hb' hcols' hrank' hdet'
        rw [hmm']
        refine ⟨ih1, ih2, ih3, ih4, ih5, ?_, ?_⟩
        · intro r hr
          exact ih6 r (hzkeep r hr)
        · intro x hx
          rcases List.mem_cons.mp hx with hx1 | hx1
          · subst hx1
            exact ih6 x hizero
          · exact ih7 x hx1
      · have hmm' : elimBelow gs j rank (i :: t) mm = elimBelow gs j rank t mm := by
          rw [helim, if_neg hg]
        push_neg at hg
        obtain ⟨ih1, ih2, ih3, ih4, ih5, ih6, ih7⟩ :=
          ih (fun x hx => hl x (List.mem_cons_of_mem i hx)) mm
            hdim hbytes hcols hrank hdet
        rw [hmm']
        refine ⟨ih1, ih2, ih3, ih4, ih5, ih6, ?_⟩
        intro x hx
        rcases List.mem_cons.mp hx with hx1 | hx1
        · subst hx1
          exact ih6 x hg
        · exact ih7 x hx1

end ns3

namespace ns3

/-! ## The column invariant of CalculateRank -/

/-- Invariant after processing the first j columns of CalculateRank along
the trajectory in which every column found a pivot: shape and byte bounds,
preserved determinant, nonzero diagonal and zeroed subdiagonal entries on
the processed columns. -/
def RankInv (N : Nat) (m0 m : List (List Nat)) (j : Nat) : Prop :=
  MatDims m N N ∧ MatBytes m ∧
  (toMatG N N m).det = (toMatG N N m0).det ∧
  (∀ c, c < j → mget m c c ≠ 0) ∧
  (∀ c r, c < j → c < r → r < N → mget m r c = 0)

theorem swapIdx_cases (a b r : Nat) :
    swapIdx a b r = if r = a then b else if r = b then a else r := rfl

theorem rankStep_found_inv {N j : Nat} {m0 m : List (List Nat)}
    (hinv : RankInv N m0 m j) (hjN : j < N)
    (hp : pivotScan m j N j < N) :
    (rankStep N (m, j) j).2 = j + 1 ∧ RankInv N m0 (rankStep N (m, j) j).1 (j + 1) := by
  obtain ⟨hdim, hbytes, hdet, hdiag, hlow⟩ := hinv
  obtain ⟨ps1, ps2, ps3, ps4⟩ := pivotScan_props m j N N j (by omega)
  set p := pivotScan m j N j with hpdef
  have hpN : p < N := hp
  have hjp : j ≤ p := ps1
  have hpnz : mget m p j ≠ 0 := ps3 hp
  have hmlen : m.length = N := hdim.1
  set m1 := if p ≠ j then listSwap m j p else m with hm1
  have hm1get : ∀ r c, mget m1 r c = mget m (swapIdx j p r) c := by
    intro r c
    rw [hm1]
    by_cases hpj : p ≠ j
    · rw [if_pos hpj]
      exact mget_listSwap (by omega) (by omega) r c
    · push_neg at hpj
      rw [if_neg (by simp [hpj])]
      rw [swapIdx_cases, hpj]
      by_cases hrj : r = j
      · rw [if_pos hrj, hrj]
      · rw [if_neg hrj, if_neg hrj]
  have hdim1 : MatDims m1 N N := by
    rw [hm1]
    by_cases hpj : p ≠ j
    · rw [if_pos hpj]
      exact MatDims_listSwap hdim (by omega) (by omega)
    · rw [if_neg (by simp at hpj ⊢; exact hpj)]
      exact hdim
  have hbytes1 : MatBytes m1 := by
    rw [hm1]
    by_cases hpj : p ≠ j
    · rw [if_pos hpj]
      exact MatBytes_listSwap hbytes (by omega) (by omega)
    · rw [if_neg (by simp at hpj ⊢; exact hpj)]
      exact hbytes
  have hdet1 : (toMatG N N m1).det = (toMatG N N m0).det := by
    rw [hm1]
    by_cases hpj : p ≠ j
    · rw [if_pos hpj]
      rw [show (listSwap m j p) = (listSwap m (⟨j, by omega⟩ : Fin N).val
        (⟨p, by omega⟩ : Fin N).val) from rfl]
      rw [det_toMatG_listSwap hmlen]
      exact hdet
    · rw [if_neg (by simp at hpj ⊢; exact hpj)]
      exact hdet
  have hpleft1 : ∀ c, c < j → mget m1 j c = 0 := by
    intro c hc
    rw [hm1get, swapIdx_cases, if_pos rfl]
    exact hlow c p hc (by omega) (by omega)
  have hpiv1 : mget m1 j j ≠ 0 := by
    rw [hm1get, swapIdx_cases, if_pos rfl]
    exact hpnz
  have hdiag1 : ∀ c, c < j → mget m1 c c ≠ 0 := by
    intro c hc
    rw [hm1get, swapIdx_cases, if_neg (by omega), if_neg (by omega)]
    exact hdiag c hc
  have hlow1 : ∀ c r, c < j → c < r → r < N → mget m1 r c = 0 := by
    intro c r hc hcr hrN
    rw [hm1get, swapIdx_cases]
    by_cases hrj : r = j
    · rw [if_pos hrj]
      exact hlow c p hc (by omega) (by omega)
    · rw [if_neg hrj]
      by_cases hrp : r = p
      · rw [if_pos hrp]
        exact hlow c j hc (by omega) (by omega)
      · rw [if_neg hrp]
        exact hlow c r hc hcr hrN
  have hl : ∀ i ∈ List.range' (j + 1) (N - (j + 1)), j < i ∧ i < N := by
    intro i hi
    rw [List.mem_range'_1] at hi
    omega
  obtain ⟨e1, e2, e3, e4, e5, e6, e7⟩ :=
    elimBelow_spec N j j m1 hjN hjN hpleft1 hpiv1
      (List.range' (j + 1) (N - (j + 1))) hl m1 hdim1 hbytes1
      (fun c hc r => rfl) (fun c => rfl) rfl
  have hstep : rankStep N (m, j) j =
      (elimBelow N j j (List.range' (j + 1) (N - (j + 1))) m1, j + 1) := by
    rw [rankStep]
    simp only [← hpdef, ← hm1]
    rw [if_pos hp]
  rw [hstep]
  refine ⟨rfl, e1, e2, by rw [e5]; exact hdet1, ?_, ?_⟩
  · intro c hc
    by_cases hcj : c < j
    · rw [e3 c hcj c]
      exact hdiag1 c hcj
    · have hcj2 : c = j := by omega
      subst hcj2
      rw [e4 c]
      exact hpiv1
  · intro c r hc hcr hrN
    by_cases hcj : c < j
    · rw [e3 c hcj r]
      exact hlow1 c r hcj hcr hrN
    · have hcj2 : c = j := by omega
      subst hcj2
      exact e7 r (by rw [List.mem_range'_1]; omega)

theorem rankStep_miss_det {N j : Nat} {m0 m : List (List Nat)}
    (hinv : RankInv N m0 m j) (hjN : j < N)
    (hp : ¬ pivotScan m j N j < N) :
    rankStep N (m, j) j = (m, j) ∧ (toMatG N N m0).det = 0 := by
  obtain ⟨hdim, hbytes, hdet, hdiag, hlow⟩ := hinv
  obtain ⟨ps1, ps2, ps3, ps4⟩ := pivotScan_props m j N N j (by omega)
  have hps : pivotScan m j N j = N := by
    have := ps2 (by omega)
    omega
  refine ⟨rankStep_miss N (m, j) j hp, ?_⟩
  rw [← hdet]
  apply det_zero_of_lower_zero _ j hjN
  intro r c hr hc
  rcases Nat.lt_or_ge c.val j with hcj | hcj
  · show byteOf (mget m r.val c.val) = 0
    rw [hlow c.val r.val hcj (by omega) r.isLt, byteOf_zero]
  · have hcj2 : c.val = j := by omega
    show byteOf (mget m r.val c.val) = 0
    rw [hcj2, ps4 r.val (by omega) (by omega), byteOf_zero]

end ns3

namespace ns3

/-! ## CalculateRank computes full rank exactly on invertible matrices -/

/-- The CalculateRank fold state after the first j columns. -/
def rankState (N : Nat) (m0 : List (List Nat)) (j : Nat) : List (List Nat) × Nat :=
  (List.range j).foldl (rankStep N) (m0, 0)

theorem CalculateRank_eq_rankState (d : NetworkCodingDecoder) :
    CalculateRank d = (rankState d.generationSize d.coefficients d.generationSize).2 := rfl

theorem rankState_zero (N : Nat) (m0 : List (List Nat)) :
    rankState N m0 0 = (m0, 0) := rfl

theorem rankState_succ (N : Nat) (m0 : List (List Nat)) (j : Nat) :
    rankState N m0 (j + 1) = rankStep N (rankState N m0 j) j := by
  rw [rankState, rankState, List.range_succ, List.foldl_append, List.foldl_cons,
    List.foldl_nil]

theorem rankState_snd_le (N : Nat) (m0 : List (List Nat)) (j : Nat) :
    (rankState N m0 j).2 ≤ j := by
  have := foldl_rankStep_le N (List.range j) (m0, 0)
  simpa [rankState] using this

theorem rankState_snd_le_succ (N : Nat) (m0 : List (List Nat)) (a b : Nat)
    (hab : a ≤ b) : (rankState N m0 b).2 ≤ (rankState N m0 a).2 + (b - a) := by
  induction b with
  | zero =>
      have : a = 0 := by omega
      subst this
      simp
  | succ b ih =>
      rcases Nat.lt_or_ge a (b + 1) with h1 | h1
      · have h2 := ih (by omega)
        have h3 := rankStep_snd_le N (rankState N m0 b) b
        rw [rankState_succ]
        omega
      · have : a = b + 1 := by omega
        subst this
        simp

/-- Completeness: an invertible stored matrix drives the rank to j after
j columns, with the invariant in force. -/
theorem rank_complete {N : Nat} {m0 : List (List Nat)}
    (hdim : MatDims m0 N N) (hbytes : MatBytes m0)
    (hdet : (toMatG N N m0).det ≠ 0) :
    ∀ j, j ≤ N → (rankState N m0 j).2 = j ∧ RankInv N m0 (rankState N m0 j).1 j := by
  intro j
  induction j with
  | zero =>
      intro _
      exact ⟨rfl, hdim, hbytes, rfl, fun c hc => absurd hc (Nat.not_lt_zero c),
        fun c r hc => absurd hc (Nat.not_lt_zero c)⟩
  | succ j ih =>
      intro hj
      obtain ⟨hsnd, hinv⟩ := ih (by omega)
      have heta : rankState N m0 j = ((rankState N m0 j).1, j) :=
        Prod.ext rfl hsnd
      by_cases hpv : pivotScan (rankState N m0 j).1 j N j < N
      · obtain ⟨h1, h2⟩ := rankStep_found_inv hinv (by omega) hpv
        rw [rankState_succ, heta]
        exact ⟨h1, h2⟩
      · obtain ⟨_, h2⟩ := rankStep_miss_det hinv (by omega) hpv
        exact absurd h2 hdet

/-- Soundness: if CalculateRank reports full rank, the stored matrix is
invertible. -/
theorem rank_sound {N : Nat} {m0 : List (List Nat)}
    (hdim : MatDims m0 N N) (hbytes : MatBytes m0)
    (hrk : (rankState N m0 N).2 = N) :
    (toMatG N N m0).det ≠ 0 := by
  have hall : ∀ j, j ≤ N → (rankState N m0 j).2 = j := by
    intro j hj
    have h1 := rankState_snd_le N m0 j
    have h2 := rankState_snd_le_succ N m0 j N hj
    omega
  have hinv : ∀ j, j ≤ N → RankInv N m0 (rankState N m0 j).1 j := by
    intro j
    induction j with
    | zero =>
        intro _
        exact ⟨hdim, hbytes, rfl, fun c hc => absurd hc (Nat.not_lt_zero c),
          fun c r hc => absurd hc (Nat.not_lt_zero c)⟩
    | succ j ih =>
        intro hj
        have hprev := ih (by omega)
        have heta : rankState N m0 j = ((rankState N m0 j).1, j) :=
          Prod.ext rfl (hall j (by omega))
        by_cases hpv : pivotScan (rankState N m0 j).1 j N j < N
        · obtain ⟨_, h2⟩ := rankStep_found_inv hprev (by omega) hpv
          rw [rankState_succ, heta]
          exact h2
        · obtain ⟨h1, _⟩ := rankStep_miss_det hprev (by omega) hpv
          have hbad : (rankState N m0 (j + 1)).2 = j := by
            rw [rankState_succ, heta, h1]
          have := hall (j + 1) (by omega)
          omega
  obtain ⟨hdimN, hbytesN, hdetN, hdiagN, hlowN⟩ := hinv N (Nat.le_refl N)
  have hne : (toMatG N N (rankState N m0 N).1).det ≠ 0 := by
    apply det_triangular_ne_zero
    · intro r c hcr
      show byteOf (mget (rankState N m0 N).1 r.val c.val) = 0
      rw [hlowN c.val r.val (by omega) hcr r.isLt, byteOf_zero]
    · intro i hi
      have hb := mget_bytes hbytesN i.val i.val
      have := (byteOf_eq_zero hb).mp hi
      exact hdiagN i.val i.isLt this
  rw [← hdetN]
  exact hne

/-- CalculateRank reports full rank exactly on invertible stored
matrices. -/
theorem rankState_full_iff {N : Nat} {m0 : List (List Nat)}
    (hdim : MatDims m0 N N) (hbytes : MatBytes m0) :
    (rankState N m0 N).2 = N ↔ (toMatG N N m0).det ≠ 0 := by
  constructor
  · exact rank_sound hdim hbytes
  · intro hdet
    exact (rank_complete hdim hbytes hdet N (Nat.le_refl N)).1

end ns3

namespace ns3

/-! ## The coded payload as a matrix product -/

theorem getD_map_range {α : Type} {f : Nat → α} {n c : Nat} (hc : c < n) (d : α) :
    ((List.range n).map f).getD c d = f c := by
  rw [List.getD_eq_getElem?_getD, List.getElem?_map, List.getElem?_range hc]
  rfl

theorem getD_lt_256 {r : List Nat} (h : ∀ x ∈ r, x < 256) (k : Nat) :
    r.getD k 0 < 256 := by
  by_cases hk : k < r.length
  · rw [List.getD_eq_getElem?_getD, List.getElem?_eq_getElem hk, Option.getD_some]
    exact h _ (List.getElem_mem hk)
  · rw [List.getD_eq_default _ _ (by omega)]
    norm_num

theorem padTo_length (l : List Nat) (n : Nat) : (padTo l n).length = n := by
  simp [padTo]

theorem padTo_eq_self {l : List Nat} {n : Nat} (h : l.length = n) : padTo l n = l := by
  apply List.ext_getElem
  · rw [padTo_length, h]
  · intro i h1 h2
    have hin : i < n := by rwa [padTo_length] at h1
    have : (padTo l n)[i] = (padTo l n).getD i 0 := by
      rw [List.getD_eq_getElem?_getD, List.getElem?_eq_getElem h1, Option.getD_some]
    rw [this, padTo, getD_map_range hin, if_pos (by omega),
      List.getD_eq_getElem?_getD, List.getElem?_eq_getElem h2, Option.getD_some]

/-- byteOf carries GF addition into the field. -/
theorem byteOf_add {x y : Nat} (hx : x < 256) (hy : y < 256) :
    byteOf (GaloisField.Add x y) = byteOf x + byteOf y := by
  apply GFb.eq_of_val
  rw [GFb.val_add, byteOf_val hx, byteOf_val hy]
  exact byteOf_val (xor_lt_256 hx hy)

/-- Appending one packet to the combination loop: one more weighted row is
folded in (or skipped when the position is past the generation size or the
coefficient is zero). -/
theorem codedCombine_append (coeffs : List Nat) (S : List (List Nat)) (s : List Nat)
    (gs ps : Nat) :
    codedCombine coeffs (S ++ [s]) gs ps =
      if S.length < gs ∧ coeffs.getD S.length 0 ≠ 0 then
        (List.range ps).map fun i =>
          GaloisField.Add ((codedCombine coeffs S gs ps).getD i 0)
            (GaloisField.Multiply (coeffs.getD S.length 0) (s.getD i 0))
      else codedCombine coeffs S gs ps := by
  rw [codedCombine, List.enum_append, List.foldl_append]
  rfl

theorem codedCombine_props (coeffs : List Nat) (gs ps : Nat) (S : List (List Nat)) :
    (codedCombine coeffs S gs ps).length = ps ∧
      ∀ k, (codedCombine coeffs S gs ps).getD k 0 < 256 := by
  induction S using List.reverseRecOn with
  | nil =>
      refine ⟨List.length_replicate _ _, fun k => ?_⟩
      by_cases hk : k < ps
      · show (List.replicate ps 0).getD k 0 < 256
        rw [List.getD_eq_getElem?_getD,
          List.getElem?_eq_getElem (by rw [List.length_replicate]; exact hk),
          Option.getD_some, List.getElem_replicate]
        norm_num
      · show (List.replicate ps 0).getD k 0 < 256
        rw [List.getD_eq_default _ _ (by rw [List.length_replicate]; omega)]
        norm_num
  | append_singleton S s ih =>
      rw [codedCombine_append]
      by_cases hbr : S.length < gs ∧ coeffs.getD S.length 0 ≠ 0
      · rw [if_pos hbr]
        refine ⟨by rw [List.length_map, List.length_range], fun k => ?_⟩
        by_cases hk : k < ps
        · rw [getD_map_range hk]
          exact xor_lt_256 (ih.2 k) (Multiply_lt _ _)
        · rw [List.getD_eq_default _ _ (by rw [List.length_map, List.length_range]; omega)]
          norm_num
      · rw [if_neg hbr]
        exact ih

theorem codedCombine_byteOf (coeffs : List Nat) (gs ps : Nat)
    (hcb : ∀ j, coeffs.getD j 0 < 256) :
    ∀ (S : List (List Nat)), (∀ r ∈ S, ∀ x ∈ r, x < 256) →
    ∀ k, k < ps →
    byteOf ((codedCombine coeffs S gs ps).getD k 0) =
      ∑ j ∈ Finset.range S.length,
        (if j < gs then byteOf (coeffs.getD j 0) * byteOf ((S.getD j []).getD k 0)
         else 0) := by
  intro S
  induction S using List.reverseRecOn with
  | nil =>
      intro _ k hk
      show byteOf ((List.replicate ps 0).getD k 0) = _
      rw [List.getD_eq_getElem?_getD,
        List.getElem?_eq_getElem (by rw [List.length_replicate]; exact hk),
        Option.getD_some, List.getElem_replicate, byteOf_zero]
      simp
  | append_singleton S s ih =>
      intro hb k hk
      have hbS : ∀ r ∈ S, ∀ x ∈ r, x < 256 := by
        intro r hr
        exact hb r (List.mem_append_left _ hr)
      have hbs : ∀ x ∈ s, x < 256 :=
        hb s (List.mem_append_right _ (List.mem_singleton.mpr rfl))
      have hlen : (S ++ [s]).length = S.length + 1 := by
        rw [List.length_append, List.length_singleton]
      have hgetS : ∀ j, j < S.length → (S ++ [s]).getD j [] = S.getD j [] := by
        intro j hj
        exact List.getD_append _ _ _ _ hj
      have hgets : (S ++ [s]).getD S.length [] = s := by
        rw [List.getD_eq_getElem?_getD, List.getElem?_append_right (Nat.le_refl _),
          Nat.sub_self]
        rfl
      rw [codedCombine_append, hlen, Finset.sum_range_succ]
      have hsum : ∑ j ∈ Finset.range S.length,
          (if j < gs then byteOf (coeffs.getD j 0) * byteOf (((S ++ [s]).getD j []).getD k 0)
           else 0) =
          ∑ j ∈ Finset.range S.length,
          (if j < gs then byteOf (coeffs.getD j 0) * byteOf ((S.getD j []).getD k 0)
           else 0) := by
        apply Finset.sum_congr rfl
        intro j hj
        rw [hgetS j (Finset.mem_range.mp hj)]
      rw [hsum, hgets]
      by_cases hbr : S.length < gs ∧ coeffs.getD S.length 0 ≠ 0
      · rw [if_pos hbr, getD_map_range hk,
          byteOf_add ((codedCombine_props coeffs gs ps S).2 k) (Multiply_lt _ _),
          byteOf_mul (hcb S.length) (getD_lt_256 hbs k), ih hbS k hk,
          if_pos hbr.1]
      · rw [if_neg hbr, ih hbS k hk]
        rcases Decidable.not_and_iff_or_not.mp hbr with h1 | h1
        · rw [if_neg h1, add_zero]
        · push_neg at h1
          rw [h1, byteOf_zero, zero_mul]
          by_cases h2 : S.length < gs
          · rw [if_pos h2, add_zero]
          · rw [if_neg h2, add_zero]

/-- The matrix of coded payloads generated from coefficient rows A over
source rows S is the matrix product A * S over GF(2^8). -/
theorem toMatG_codedMatrix {N P : Nat} {A S : List (List Nat)}
    (hAdim : MatDims A N N) (hAb : MatBytes A) (hSdim : MatDims S N P)
    (hSb : MatBytes S) :
    toMatG N P ((List.range N).map fun i => codedCombine (A.getD i []) S N P) =
      toMatG N N A * toMatG N P S := by
  funext r c
  rw [Matrix.mul_apply]
  show byteOf (mget ((List.range N).map fun i => codedCombine (A.getD i []) S N P)
    r.val c.val) = _
  have hrow : mget ((List.range N).map fun i => codedCombine (A.getD i []) S N P)
      r.val c.val = (codedCombine (A.getD r.val []) S N P).getD c.val 0 := by
    show (((List.range N).map fun i => codedCombine (A.getD i []) S N P).getD
      r.val []).getD c.val 0 = _
    rw [getD_map_range r.isLt]
  have hcb : ∀ j, (A.getD r.val []).getD j 0 < 256 :=
    getD_lt_256 (hAb _ (getD_row_mem (by rw [hAdim.1]; exact r.isLt)))
  rw [hrow, codedCombine_byteOf _ _ _ hcb S hSb c.val c.isLt, hSdim.1]
  have hr : ∑ j : Fin N, toMatG N N A r j * toMatG N P S j c =
      ∑ j ∈ Finset.range N, byteOf (mget A r.val j) * byteOf (mget S j c.val) :=
    Fin.sum_univ_eq_sum_range (fun j => byteOf (mget A r.val j) * byteOf (mget S j c.val)) N
  rw [hr]
  apply Finset.sum_congr rfl
  intro j hj
  rw [if_pos (Finset.mem_range.mp hj)]
  rfl

end ns3

namespace ns3

/-! ## Locating the first empty coefficient row -/

theorem find_range'_first (p : Nat → Bool) :
    ∀ (len s k : Nat), s ≤ k → k < s + len →
      (∀ i, s ≤ i → i < k → p i = false) → p k = true →
      (List.range' s len).find? p = some k := by
  intro len
  induction len with
  | zero =>
      intro s k h1 h2 _ _
      exact absurd h2 (by omega)
  | succ n ih =>
      intro s k h1 h2 hbef hk
      rw [List.range'_succ]
      by_cases hs : s = k
      · subst hs
        rw [List.find?_cons_of_pos _ hk]
      · rw [List.find?_cons_of_neg _
          (by rw [hbef s (Nat.le_refl s) (by omega)]; simp)]
        exact ih (s + 1) k (by omega) (by omega)
          (fun i hi1 hi2 => hbef i (by omega) hi2) hk

theorem rowEmptyB_true {m : List (List Nat)} {i gs : Nat}
    (h : ∀ j, j < gs → mget m i j = 0) : rowEmptyB m i gs = true := by
  rw [rowEmptyB, List.all_eq_true]
  intro j hj
  rw [h j (List.mem_range.mp hj)]
  rfl

theorem rowEmptyB_false {m : List (List Nat)} {i gs j : Nat} (hj : j < gs)
    (h : mget m i j ≠ 0) : rowEmptyB m i gs = false := by
  rw [Bool.eq_false_iff]
  intro hall
  have := List.all_eq_true.mp hall j (List.mem_range.mpr hj)
  exact h (by simpa using this)

theorem firstEmptyRow_eq {m : List (List Nat)} {gs k : Nat} (hk : k < gs)
    (hbefore : ∀ i, i < k → rowEmptyB m i gs = false)
    (hk2 : rowEmptyB m k gs = true) :
    firstEmptyRow m gs = some k := by
  rw [firstEmptyRow, List.range_eq_range']
  exact find_range'_first _ gs 0 k (Nat.zero_le k) (by omega)
    (fun i _ hi => hbefore i hi) hk2

/-! ## Invertibility gives a nonzero determinant and nonzero rows -/

theorem det_ne_zero_of_left_inv {N : Nat} {M B : Matrix (Fin N) (Fin N) GFb}
    (hB : B * M = 1) : M.det ≠ 0 := by
  intro h0
  have h1 := congrArg Matrix.det hB
  rw [Matrix.det_mul, h0, mul_zero, Matrix.det_one] at h1
  exact zero_ne_one h1

theorem row_nonzero_of_det {N : Nat} {A : List (List Nat)}
    (hdet : (toMatG N N A).det ≠ 0) (i : Nat) (hi : i < N) :
    ∃ j, j < N ∧ mget A i j ≠ 0 := by
  by_contra hcon
  push_neg at hcon
  apply hdet
  apply Matrix.det_eq_zero_of_row_eq_zero ⟨i, hi⟩
  intro j
  show byteOf (mget A i j.val) = 0
  rw [hcon j.val j.isLt, byteOf_zero]

/-! ## The partially filled decoder matrices -/

theorem replicate_getD_zero (cols j : Nat) : (List.replicate cols 0).getD j 0 = 0 := by
  by_cases hj : j < cols
  · rw [List.getD_eq_getElem?_getD,
      List.getElem?_eq_getElem (by rw [List.length_replicate]; exact hj),
      Option.getD_some, List.getElem_replicate]
  · rw [List.getD_eq_default _ _ (by rw [List.length_replicate]; omega)]

/-- The coefficient / payload matrix of the decoder after the first k rows
have been stored from the rows of M (the remaining rows still zeroed). -/
def fillMat (M : List (List Nat)) (N cols k : Nat) : List (List Nat) :=
  (List.range N).map fun i => if i < k then M.getD i [] else List.replicate cols 0

theorem fillMat_length (M : List (List Nat)) (N cols k : Nat) :
    (fillMat M N cols k).length = N := by
  rw [fillMat, List.length_map, List.length_range]

theorem fillMat_zero (M : List (List Nat)) (N cols : Nat) :
    fillMat M N cols 0 = List.replicate N (List.replicate cols 0) := by
  apply List.ext_getElem
  · rw [fillMat_length, List.length_replicate]
  · intro i h1 h2
    rw [fillMat_length] at h1
    simp only [fillMat, List.getElem_map, List.getElem_range, List.getElem_replicate]
    rw [if_neg (by omega)]

theorem fillMat_getD {M : List (List Nat)} {N cols k i : Nat} (hi : i < N) :
    (fillMat M N cols k).getD i [] =
      if i < k then M.getD i [] else List.replicate cols 0 :=
  getD_map_range hi []

theorem fillMat_full {M : List (List Nat)} {N cols : Nat} (h : M.length = N) :
    fillMat M N cols N = M := by
  apply List.ext_getElem
  · rw [fillMat_length, h]
  · intro i h1 h2
    rw [fillMat_length] at h1
    simp only [fillMat, List.getElem_map, List.getElem_range]
    rw [if_pos h1, List.getD_eq_getElem?_getD, List.getElem?_eq_getElem h2,
      Option.getD_some]

theorem fillMat_set {M : List (List Nat)} {N cols k : Nat} (hk : k < N) :
    (fillMat M N cols k).set k (M.getD k []) = fillMat M N cols (k + 1) := by
  apply List.ext_getElem
  · rw [List.length_set, fillMat_length, fillMat_length]
  · intro i h1 h2
    have hiN : i < N := by rw [fillMat_length] at h2; exact h2
    rw [List.getElem_set]
    simp only [fillMat, List.getElem_map, List.getElem_range]
    by_cases hik : k = i
    · subst hik
      rw [if_pos rfl, if_pos (by omega)]
    · rw [if_neg hik]
      by_cases hlt : i < k
      · rw [if_pos hlt, if_pos (by omega)]
      · rw [if_neg hlt, if_neg (by omega)]

theorem fillMat_dims {M : List (List Nat)} {N cols k : Nat}
    (hrows : ∀ i, i < k → (M.getD i []).length = cols) :
    MatDims (fillMat M N cols k) N cols := by
  refine ⟨fillMat_length M N cols k, ?_⟩
  intro r hr
  obtain ⟨i, hi, heq⟩ := List.mem_map.mp hr
  rw [← heq]
  by_cases hik : i < k
  · rw [if_pos hik]
    exact hrows i hik
  · rw [if_neg hik]
    exact List.length_replicate _ _

theorem fillMat_bytes {M : List (List Nat)} {N cols k : Nat}
    (hb : ∀ i, i < k → ∀ x ∈ M.getD i [], x < 256) :
    MatBytes (fillMat M N cols k) := by
  intro r hr
  obtain ⟨i, hi, heq⟩ := List.mem_map.mp hr
  rw [← heq]
  by_cases hik : i < k
  · rw [if_pos hik]
    exact hb i hik
  · rw [if_neg hik]
    intro x hx
    rw [List.eq_of_mem_replicate hx]
    norm_num

theorem fillMat_mget_lt {M : List (List Nat)} {N cols k i j : Nat}
    (hi : i < N) (hik : i < k) :
    mget (fillMat M N cols k) i j = mget M i j := by
  show ((fillMat M N cols k).getD i []).getD j 0 = _
  rw [fillMat_getD hi, if_pos hik]
  rfl

theorem fillMat_mget_ge {M : List (List Nat)} {N cols k i j : Nat}
    (hi : i < N) (hik : ¬ i < k) :
    mget (fillMat M N cols k) i j = 0 := by
  show ((fillMat M N cols k).getD i []).getD j 0 = 0
  rw [fillMat_getD hi, if_neg hik]
  exact replicate_getD_zero cols j

end ns3

namespace ns3

/-! ## Round-trip setup: coded packets fed into a fresh decoder -/

/-- The matrix of coded payloads: row i combines the sources under
coefficient row i of A. -/
def codedPayloadMatrix (A S : List (List Nat)) (N P : Nat) : List (List Nat) :=
  (List.range N).map fun i => codedCombine (A.getD i []) S N P

/-- The i-th coded packet of the round trip: generation 0, coefficient
vector row i of A, payload the matching combination of the sources. -/
def codedFrom (A S : List (List Nat)) (N P i : Nat) : CodedPacket :=
  { header := { generationId := 0, generationSize := N,
                coefficients := A.getD i [] },
    payload := codedCombine (A.getD i []) S N P }

/-- Feeding a list of coded packets into the decoder in order. -/
def feedAll (d : NetworkCodingDecoder) (l : List CodedPacket) :
    NetworkCodingDecoder :=
  l.foldl (fun d p => (ProcessCodedPacket d p).2) d

/-- The decoder state after the first k coded packets have been stored. -/
def decState (A S : List (List Nat)) (N P k : Nat) : NetworkCodingDecoder :=
  { generationSize := N, packetSize := P, currentGeneration := 0,
    decoded := false,
    coefficients := fillMat A N N k,
    codedPayloads := fillMat (codedPayloadMatrix A S N P) N P k,
    decodedPackets := [], receivedSequences := [] }

theorem decState_zero (A S : List (List Nat)) (N P : Nat) :
    decState A S N P 0 = mkDecoder N P := by
  rw [decState, mkDecoder, fillMat_zero, fillMat_zero]

theorem feedAll_concat (d : NetworkCodingDecoder) (l : List CodedPacket)
    (p : CodedPacket) :
    feedAll d (l ++ [p]) = (ProcessCodedPacket (feedAll d l) p).2 := by
  rw [feedAll, List.foldl_append]
  rfl

/-- Storing the k-th coded packet: it passes every gate, lands in row k of
both matrices, and the call then branches on the rank of the grown
matrix. -/
theorem ProcessCodedPacket_decState {N P k : Nat} {A S : List (List Nat)}
    (hk : k < N) (hAdim : MatDims A N N)
    (hdet : (toMatG N N A).det ≠ 0) :
    ProcessCodedPacket (decState A S N P k) (codedFrom A S N P k) =
      (if CanDecodeB (decState A S N P (k + 1)) then
        (true, DecodeGeneration (decState A S N P (k + 1)))
       else (true, decState A S N P (k + 1))) := by
  have hrowlen : (A.getD k []).length = N :=
    hAdim.2 _ (getD_row_mem (by rw [hAdim.1]; exact hk))
  have hcoef : (codedFrom A S N P k).header.coefficients ≠ [] := by
    show A.getD k [] ≠ []
    intro he
    rw [he] at hrowlen
    simp at hrowlen
    omega
  have hfind : firstEmptyRow (decState A S N P k).coefficients
      (decState A S N P k).generationSize = some k := by
    show firstEmptyRow (fillMat A N N k) N = some k
    apply firstEmptyRow_eq hk
    · intro i hi
      obtain ⟨j, hj, hnz⟩ := row_nonzero_of_det hdet i (by omega)
      exact rowEmptyB_false hj
        (by rw [fillMat_mget_lt (by omega) hi]; exact hnz)
    · apply rowEmptyB_true
      intro j _
      exact fillMat_mget_ge hk (by omega)
  have hpad1 : padTo (A.getD k []) N = A.getD k [] := padTo_eq_self hrowlen
  have hpad2 : padTo (codedCombine (A.getD k []) S N P) P =
      codedCombine (A.getD k []) S N P :=
    padTo_eq_self (codedCombine_props _ _ _ _).1
  have hPmrow : (codedPayloadMatrix A S N P).getD k [] =
      codedCombine (A.getD k []) S N P := getD_map_range hk []
  have hd1 : ({ decState A S N P k with
      coefficients := (decState A S N P k).coefficients.set k
        (padTo (codedFrom A S N P k).header.coefficients
          (decState A S N P k).generationSize),
      codedPayloads := (decState A S N P k).codedPayloads.set k
        (padTo (codedFrom A S N P k).payload
          (decState A S N P k).packetSize) } : NetworkCodingDecoder) =
      decState A S N P (k + 1) := by
    show ({ decState A S N P k with
      coefficients := (fillMat A N N k).set k (padTo (A.getD k []) N),
      codedPayloads := (fillMat (codedPayloadMatrix A S N P) N P k).set k
        (padTo (codedCombine (A.getD k []) S N P) P) } :
        NetworkCodingDecoder) = _
    rw [hpad1, hpad2, ← hPmrow, fillMat_set hk, fillMat_set hk]
    rfl
  have hrun : ProcessCodedPacket (decState A S N P k) (codedFrom A S N P k) =
      (if CanDecodeB { decState A S N P k with
          coefficients := (decState A S N P k).coefficients.set k
            (padTo (codedFrom A S N P k).header.coefficients
              (decState A S N P k).generationSize),
          codedPayloads := (decState A S N P k).codedPayloads.set k
            (padTo (codedFrom A S N P k).payload
              (decState A S N P k).packetSize) }
       then (true, DecodeGeneration { decState A S N P k with
          coefficients := (decState A S N P k).coefficients.set k
            (padTo (codedFrom A S N P k).header.coefficients
              (decState A S N P k).generationSize),
          codedPayloads := (decState A S N P k).codedPayloads.set k
            (padTo (codedFrom A S N P k).payload
              (decState A S N P k).packetSize) })
       else (true, { decState A S N P k with
          coefficients := (decState A S N P k).coefficients.set k
            (padTo (codedFrom A S N P k).header.coefficients
              (decState A S N P k).generationSize),
          codedPayloads := (decState A S N P k).codedPayloads.set k
            (padTo (codedFrom A S N P k).payload
              (decState A S N P k).packetSize) })) := by
    rw [ProcessCodedPacket, if_neg (by simp [decState]),
      if_neg (by simp [decState, codedFrom]), if_neg hcoef]
    simp [hfind]
  rw [hrun, hd1]

end ns3

namespace ns3

/-! ## The rank gate along the feed -/

theorem fillMat_dims_of {N cols k : Nat} {A : List (List Nat)} (hkN : k ≤ N)
    (hA : MatDims A N cols) (hAN : A.length = N) :
    MatDims (fillMat A N cols k) N cols := by
  apply fillMat_dims
  intro i hi
  exact hA.2 _ (getD_row_mem (by omega))

theorem fillMat_bytes_of {N cols k : Nat} {A : List (List Nat)} (hkN : k ≤ N)
    (hAN : A.length = N) (hAb : MatBytes A) :
    MatBytes (fillMat A N cols k) := by
  apply fillMat_bytes
  intro i hi
  exact hAb _ (getD_row_mem (by omega))

/-- Before the generation is full the coefficient matrix keeps an all-zero
row, so the rank check fails. -/
theorem CanDecodeB_decState_false {N P m : Nat} {A S : List (List Nat)}
    (hm : m < N) (hAdim : MatDims A N N) (hAb : MatBytes A) :
    CanDecodeB (decState A S N P m) = false := by
  rw [CanDecodeB]
  have hrank : CalculateRank (decState A S N P m) ≠ N := by
    show (rankState N (fillMat A N N m) N).2 ≠ N
    intro hr
    have hdet0 := rank_sound (fillMat_dims_of (by omega) hAdim hAdim.1)
      (fillMat_bytes_of (by omega) hAdim.1 hAb) hr
    apply hdet0
    apply Matrix.det_eq_zero_of_row_eq_zero ⟨N - 1, by omega⟩
    intro j
    show byteOf (mget (fillMat A N N m) (N - 1) j.val) = 0
    rw [fillMat_mget_ge (by omega) (by omega), byteOf_zero]
  show (CalculateRank (decState A S N P m) == N) = false
  simpa using hrank

/-- With all generation rows stored the coefficient matrix is A itself and
the rank check passes. -/
theorem CanDecodeB_decState_full {N P : Nat} {A S : List (List Nat)}
    (hAdim : MatDims A N N) (hAb : MatBytes A)
    (hdet : (toMatG N N A).det ≠ 0) :
    CanDecodeB (decState A S N P N) = true := by
  rw [CanDecodeB]
  have hrank : CalculateRank (decState A S N P N) = N := by
    show (rankState N (fillMat A N N N) N).2 = N
    rw [fillMat_full hAdim.1]
    exact (rankState_full_iff hAdim hAb).mpr hdet
  show (CalculateRank (decState A S N P N) == N) = true
  simpa using hrank

/-- Feeding the first k coded packets lands them in the first k rows. -/
theorem feedAll_decState {N P : Nat} {A S : List (List Nat)}
    (hAdim : MatDims A N N) (hAb : MatBytes A)
    (hdet : (toMatG N N A).det ≠ 0) :
    ∀ k, k < N →
      feedAll (mkDecoder N P) ((List.range k).map (codedFrom A S N P)) =
        decState A S N P k := by
  intro k
  induction k with
  | zero =>
      intro _
      show mkDecoder N P = decState A S N P 0
      rw [decState_zero]
  | succ k ih =>
      intro hk
      rw [List.range_succ, List.map_append,
        show (List.map (codedFrom A S N P) [k]) = [codedFrom A S N P k] from rfl,
        feedAll_concat]
      rw [show feedAll (mkDecoder N P) ((List.range k).map (codedFrom A S N P)) =
        decState A S N P k from ih (by omega)]
      rw [ProcessCodedPacket_decState (by omega) hAdim hdet,
        CanDecodeB_decState_false hk hAdim hAb]
      rfl

/-- Feeding all N coded packets fills the matrices and fires the decode. -/
theorem feedAll_full {N P : Nat} {A S : List (List Nat)} (hN : 0 < N)
    (hAdim : MatDims A N N) (hAb : MatBytes A)
    (hdet : (toMatG N N A).det ≠ 0) :
    feedAll (mkDecoder N P) ((List.range N).map (codedFrom A S N P)) =
      DecodeGeneration (decState A S N P N) := by
  obtain ⟨M, rfl⟩ : ∃ M, N = M + 1 := ⟨N - 1, by omega⟩
  rw [List.range_succ, List.map_append,
    show (List.map (codedFrom A S (M + 1) P) [M]) = [codedFrom A S (M + 1) P M]
      from rfl,
    feedAll_concat]
  rw [feedAll_decState hAdim hAb hdet M (by omega)]
  rw [ProcessCodedPacket_decState (by omega) hAdim hdet,
    CanDecodeB_decState_full hAdim hAb hdet]
  rfl

end ns3

namespace ns3

/-! ## Row operations against a fixed right factor -/

theorem submatrix_mul_right {n p : Nat} (M : Matrix (Fin n) (Fin n) GFb)
    (B : Matrix (Fin n) (Fin p) GFb) (σ : Equiv.Perm (Fin n)) :
    (M.submatrix σ id) * B = (M * B).submatrix σ id := by
  ext r c
  rw [Matrix.submatrix_apply, Matrix.mul_apply, Matrix.mul_apply]
  rfl

theorem updateRow_smul_mul {n p : Nat} (M : Matrix (Fin n) (Fin n) GFb)
    (B : Matrix (Fin n) (Fin p) GFb) (i : Fin n) (f : GFb) :
    (M.updateRow i (f • M i)) * B = (M * B).updateRow i (f • (M * B) i) := by
  ext r c
  by_cases hr : r = i
  · subst hr
    rw [Matrix.updateRow_self, Matrix.mul_apply]
    simp only [Matrix.updateRow_self, Pi.smul_apply, smul_eq_mul, Matrix.mul_apply]
    rw [Finset.mul_sum]
    apply Finset.sum_congr rfl
    intro k _
    ring
  · rw [Matrix.updateRow_ne hr, Matrix.mul_apply, Matrix.mul_apply]
    apply Finset.sum_congr rfl
    intro k _
    rw [Matrix.updateRow_ne hr]

theorem updateRow_add_smul_mul {n p : Nat} (M : Matrix (Fin n) (Fin n) GFb)
    (B : Matrix (Fin n) (Fin p) GFb) (j i : Fin n) (f : GFb) :
    (M.updateRow j (M j + f • M i)) * B =
      (M * B).updateRow j ((M * B) j + f • (M * B) i) := by
  ext r c
  by_cases hr : r = j
  · subst hr
    rw [Matrix.updateRow_self, Matrix.mul_apply]
    simp only [Matrix.updateRow_self, Pi.add_apply, Pi.smul_apply, smul_eq_mul,
      Matrix.mul_apply]
    rw [Finset.mul_sum, ← Finset.sum_add_distrib]
    apply Finset.sum_congr rfl
    intro k _
    ring
  · rw [Matrix.updateRow_ne hr, Matrix.mul_apply, Matrix.mul_apply]
    apply Finset.sum_congr rfl
    intro k _
    rw [Matrix.updateRow_ne hr]

/-! ## Field facts for the Gauss-Jordan updates -/

theorem IP_ne_zero {a : Nat} (ha : a ≠ 0) : InverseP a ≠ 0 := by
  rw [InverseP, if_neg ha]
  show gfExpP (255 - gfLogP a) ≠ 0
  by_cases h0 : gfLogP a = 0
  · rw [h0, gfExpP_255]
    norm_num
  · exact exp_ne_zero (by omega)

theorem Inverse_lt (a : Nat) : GaloisField.Inverse a < 256 := by
  rw [Inverse_eq]
  have := IP_le a
  omega

theorem byteOf_inv {p : Nat} (hp : p < 256) :
    byteOf (GaloisField.Inverse p) = (byteOf p)⁻¹ := by
  apply GFb.eq_of_val
  rw [GFb.val_inv, byteOf_val hp, Inverse_eq]
  exact byteOf_val (by have := IP_le p; omega)

/-! ## The three decodeStep row updates as matrix operations -/

theorem toMatG_listSwap_rect {R C : Nat} {m : List (List Nat)}
    (hlen : m.length = R) (a b : Fin R) :
    toMatG R C (listSwap m a.val b.val) =
      (toMatG R C m).submatrix (Equiv.swap a b) id := by
  funext r c
  rw [toMatG, Matrix.of_apply, Matrix.submatrix_apply, toMatG, Matrix.of_apply,
    mget_listSwap (by omega) (by omega)]
  congr 2
  rw [Equiv.swap_apply_def, swapIdx]
  by_cases hra : r.val = a.val <;> by_cases hrb : r.val = b.val <;>
    simp_all [Fin.ext_iff]

theorem toMatG_set_scale {R C i : Nat} {m : List (List Nat)} {v : Nat}
    (hdim : MatDims m R C) (hb : MatBytes m) (hi : i < R) (hv : v < 256) :
    toMatG R C (m.set i ((List.range C).map fun j =>
        GaloisField.Multiply (mget m i j) v)) =
      (toMatG R C m).updateRow ⟨i, hi⟩ (byteOf v • (toMatG R C m) ⟨i, hi⟩) := by
  have hmlen : m.length = R := hdim.1
  funext r c
  by_cases hri : r = (⟨i, hi⟩ : Fin R)
  · subst hri
    rw [Matrix.updateRow_self]
    show byteOf (mget (m.set i _) i c.val) = _
    rw [mget_set (by omega), if_pos rfl, getD_map_range c.isLt 0,
      byteOf_mul (mget_bytes hb i c.val) hv]
    show byteOf (mget m i c.val) * byteOf v = byteOf v * byteOf (mget m i c.val)
    exact mul_comm _ _
  · rw [Matrix.updateRow_ne hri]
    show byteOf (mget (m.set i _) r.val c.val) = byteOf (mget m r.val c.val)
    rw [mget_set (by omega), if_neg (fun he => hri (Fin.ext he))]

theorem toMatG_set_sub {R C i j : Nat} {m : List (List Nat)} {factor : Nat}
    (hdim : MatDims m R C) (hb : MatBytes m) (hj : j < R) (hi : i < R)
    (hf : factor < 256) :
    toMatG R C (m.set j ((List.range C).map fun k =>
        GaloisField.Subtract (mget m j k)
          (GaloisField.Multiply factor (mget m i k)))) =
      (toMatG R C m).updateRow ⟨j, hj⟩
        ((toMatG R C m) ⟨j, hj⟩ + byteOf factor • (toMatG R C m) ⟨i, hi⟩) := by
  have hmlen : m.length = R := hdim.1
  funext r c
  by_cases hrj : r = (⟨j, hj⟩ : Fin R)
  · subst hrj
    rw [Matrix.updateRow_self]
    show byteOf (mget (m.set j _) j c.val) = _
    rw [mget_set (by omega), if_pos rfl, getD_map_range c.isLt 0,
      byteOf_elim (mget_bytes hb j c.val) hf (mget_bytes hb i c.val)]
    rfl
  · rw [Matrix.updateRow_ne hrj]
    show byteOf (mget (m.set j _) r.val c.val) = byteOf (mget m r.val c.val)
    rw [mget_set (by omega), if_neg (fun he => hrj (Fin.ext he))]

end ns3

namespace ns3

/-! ## The inner elimination fold of DecodeGeneration -/

/-- The fold of decodeStep that clears column i from every other row,
written over an explicit index list. -/
def elimAll (gs ps i : Nat) (l : List Nat)
    (t0 : List (List Nat) × List (List Nat)) :
    List (List Nat) × List (List Nat) :=
  l.foldl
    (fun t j =>
      if j ≠ i ∧ mget t.1 j i ≠ 0 then
        (t.1.set j ((List.range gs).map fun k =>
            GaloisField.Subtract (mget t.1 j k)
              (GaloisField.Multiply (mget t.1 j i) (mget t.1 i k))),
         t.2.set j ((List.range ps).map fun k =>
            GaloisField.Subtract (mget t.2 j k)
              (GaloisField.Multiply (mget t.1 j i) (mget t.2 i k))))
      else t) t0

theorem Subtract_zero_right (x : Nat) : GaloisField.Subtract x 0 = x :=
  Nat.xor_zero x

theorem Multiply_zero_right (x : Nat) : GaloisField.Multiply x 0 = 0 := by
  rw [Multiply_eq]
  exact MP_zero_right x

theorem Multiply_one_right {x : Nat} (hx : x < 256) :
    GaloisField.Multiply x 1 = x := by
  rw [Multiply_eq]
  exact MP_one_right hx

theorem elimAll_spec (gs ps i : Nat) (Smat : Matrix (Fin gs) (Fin ps) GFb)
    (cm2 : List (List Nat)) (hi : i < gs)
    (hii : mget cm2 i i = 1)
    (hic : ∀ c, c < i → mget cm2 i c = 0) :
    ∀ (l : List Nat), (∀ j ∈ l, j < gs) →
    ∀ (cm pm : List (List Nat)),
      MatDims cm gs gs → MatBytes cm → MatDims pm gs ps → MatBytes pm →
      (∀ c, mget cm i c = mget cm2 i c) →
      (∀ c, c < i → ∀ r, mget cm r c = mget cm2 r c) →
      (toMatG gs gs cm).det = (toMatG gs gs cm2).det →
      toMatG gs ps pm = toMatG gs gs cm * Smat →
      MatDims (elimAll gs ps i l (cm, pm)).1 gs gs ∧
      MatBytes (elimAll gs ps i l (cm, pm)).1 ∧
      MatDims (elimAll gs ps i l (cm, pm)).2 gs ps ∧
      MatBytes (elimAll gs ps i l (cm, pm)).2 ∧
      (∀ c, mget (elimAll gs ps i l (cm, pm)).1 i c = mget cm2 i c) ∧
      (∀ c, c < i → ∀ r, mget (elimAll gs ps i l (cm, pm)).1 r c = mget cm2 r c) ∧
      (toMatG gs gs (elimAll gs ps i l (cm, pm)).1).det =
        (toMatG gs gs cm2).det ∧
      toMatG gs ps (elimAll gs ps i l (cm, pm)).2 =
        toMatG gs gs (elimAll gs ps i l (cm, pm)).1 * Smat ∧
      (∀ r, r ≠ i → mget cm r i = 0 →
        mget (elimAll gs ps i l (cm, pm)).1 r i = 0) ∧
      (∀ j ∈ l, j ≠ i → mget (elimAll gs ps i l (cm, pm)).1 j i = 0) := by
  intro l
  induction l with
  | nil =>
      intro _ cm pm h1 h2 h3 h4 h5 h6 h7 h8
      exact ⟨h1, h2, h3, h4, h5, h6, h7, h8, fun r _ h => h,
        fun j hj => absurd hj (List.not_mem_nil j)⟩
  | cons j t ih =>
      intro hl cm pm hdimc hbc hdimp hbp hrowi hcols hdet hpay
      have hjgs : j < gs := hl j (List.mem_cons_self j t)
      have hclen : cm.length = gs := hdimc.1
      have hplen : pm.length = gs := hdimp.1
      have hstep : elimAll gs ps i (j :: t) (cm, pm) =
          elimAll gs ps i t (if j ≠ i ∧ mget cm j i ≠ 0 then
            (cm.set j ((List.range gs).map fun k =>
                GaloisField.Subtract (mget cm j k)
                  (GaloisField.Multiply (mget cm j i) (mget cm i k))),
             pm.set j ((List.range ps).map fun k =>
                GaloisField.Subtract (mget pm j k)
                  (GaloisField.Multiply (mget cm j i) (mget pm i k))))
          else (cm, pm)) := by
        rw [elimAll, List.foldl_cons, ← elimAll]
      by_cases hg : j ≠ i ∧ mget cm j i ≠ 0
      · have hji : j ≠ i := hg.1
        have hfb : mget cm j i < 256 := mget_bytes hbc j i
        set rowC := (List.range gs).map fun k =>
            GaloisField.Subtract (mget cm j k)
              (GaloisField.Multiply (mget cm j i) (mget cm i k)) with hrowC
        set rowP := (List.range ps).map fun k =>
            GaloisField.Subtract (mget pm j k)
              (GaloisField.Multiply (mget cm j i) (mget pm i k)) with hrowP
        have hmm' : elimAll gs ps i (j :: t) (cm, pm) =
            elimAll gs ps i t (cm.set j rowC, pm.set j rowP) := by
          rw [hstep, if_pos hg]
        have hrowClen : rowC.length = gs := by
          rw [hrowC, List.length_map, List.length_range]
        have hrowPlen : rowP.length = ps := by
          rw [hrowP, List.length_map, List.length_range]
        have hrowCget : ∀ c, c < gs → rowC.getD c 0 =
            GaloisField.Subtract (mget cm j c)
              (GaloisField.Multiply (mget cm j i) (mget cm i c)) := by
          intro c hc
          rw [hrowC]
          exact getD_map_range hc 0
        have hrowPget : ∀ c, c < ps → rowP.getD c 0 =
            GaloisField.Subtract (mget pm j c)
              (GaloisField.Multiply (mget cm j i) (mget pm i c)) := by
          intro c hc
          rw [hrowP]
          exact getD_map_range hc 0
        have hrowCb : ∀ x ∈ rowC, x < 256 := by
          apply mem_lt_of_getD
          intro c
          by_cases hc : c < gs
          · rw [hrowCget c hc]
            exact Subtract_lt (mget_bytes hbc j c) (Multiply_lt _ _)
          · rw [hrowC, List.getD_eq_default _ _
              (by rw [List.length_map, List.length_range]; omega)]
            norm_num
        have hrowPb : ∀ x ∈ rowP, x < 256 := by
          apply mem_lt_of_getD
          intro c
          by_cases hc : c < ps
          · rw [hrowPget c hc]
            exact Subtract_lt (mget_bytes hbp j c) (Multiply_lt _ _)
          · rw [hrowP, List.getD_eq_default _ _
              (by rw [List.length_map, List.length_range]; omega)]
            norm_num
        have hdimc' : MatDims (cm.set j rowC) gs gs := MatDims_set hdimc hrowClen
        have hbc' : MatBytes (cm.set j rowC) := MatBytes_set hbc hrowCb
        have hdimp' : MatDims (pm.set j rowP) gs ps := MatDims_set hdimp hrowPlen
        have hbp' : MatBytes (pm.set j rowP) := MatBytes_set hbp hrowPb
        have hrowi' : ∀ c, mget (cm.set j rowC) i c = mget cm2 i c := by
          intro c
          rw [mget_set (by omega) rowC i c, if_neg (fun he => hji he.symm)]
          exact hrowi c
        have hcols' : ∀ c, c < i → ∀ r, mget (cm.set j rowC) r c = mget cm2 r c := by
          intro c hc r
          rw [mget_set (by omega) rowC r c]
          by_cases hr : r = j
          · rw [if_pos hr, hrowCget c (by omega)]
            have hz : mget cm i c = 0 := by
              rw [hrowi c]
              exact hic c hc
            rw [hz, Multiply_zero_right, Subtract_zero_right, hr]
            exact hcols c hc j
          · rw [if_neg hr]
            exact hcols c hc r
        have hdetEq : toMatG gs gs (cm.set j rowC) =
            (toMatG gs gs cm).updateRow ⟨j, hjgs⟩
              ((toMatG gs gs cm) ⟨j, hjgs⟩ +
                byteOf (mget cm j i) • (toMatG gs gs cm) ⟨i, hi⟩) := by
          rw [hrowC]
          exact toMatG_set_sub hdimc hbc hjgs hi hfb
        have hdet' : (toMatG gs gs (cm.set j rowC)).det = (toMatG gs gs cm2).det := by
          rw [hdetEq, Matrix.det_updateRow_add_smul_self _
            (by intro he; have := congrArg Fin.val he; simp at this; omega) _]
          exact hdet
        have hpayEq : toMatG gs ps (pm.set j rowP) =
            (toMatG gs ps pm).updateRow ⟨j, hjgs⟩
              ((toMatG gs ps pm) ⟨j, hjgs⟩ +
                byteOf (mget cm j i) • (toMatG gs ps pm) ⟨i, hi⟩) := by
          rw [hrowP]
          exact toMatG_set_sub hdimp hbp hjgs hi hfb
        have hpay' : toMatG gs ps (pm.set j rowP) =
            toMatG gs gs (cm.set j rowC) * Smat := by
          rw [hpayEq, hpay, ← updateRow_add_smul_mul, ← hdetEq]
        have hkeep : ∀ r, r ≠ i → mget cm r i = 0 → mget (cm.set j rowC) r i = 0 := by
          intro r _ h0
          rw [mget_set (by omega) rowC r i]
          by_cases hr : r = j
          · rw [hr] at h0
            exact absurd h0 hg.2
          · rw [if_neg hr]
            exact h0
        have hjzero : mget (cm.set j rowC) j i = 0 := by
          rw [mget_set (by omega) rowC j i, if_pos rfl, hrowCget i hi]
          have h1 : mget cm i i = 1 := by
            rw [hrowi i]
            exact hii
          rw [h1, Multiply_one_right hfb]
          exact Nat.xor_self _
        obtain ⟨ih1, ih2, ih3, ih4, ih5, ih6, ih7, ih8, ih9, ih10⟩ :=
          ih (fun x hx => hl x (List.mem_cons_of_mem j hx)) (cm.set j rowC)
            (pm.set j rowP) hdimc' hbc' hdimp' hbp' hrowi' hcols' hdet' hpay'
        rw [hmm']
        refine ⟨ih1, ih2, ih3, ih4, ih5, ih6, ih7, ih8, ?_, ?_⟩
        · intro r hr h0
          exact ih9 r hr (hkeep r hr h0)
        · intro x hx hxi
          rcases List.mem_cons.mp hx with hx1 | hx1
          · subst hx1
            exact ih9 x hxi hjzero
          · exact ih10 x hx1 hxi
      · have hmm' : elimAll gs ps i (j :: t) (cm, pm) = elimAll gs ps i t (cm, pm) := by
          rw [hstep, if_neg hg]
        obtain ⟨ih1, ih2, ih3, ih4, ih5, ih6, ih7, ih8, ih9, ih10⟩ :=
          ih (fun x hx => hl x (List.mem_cons_of_mem j hx)) cm pm
            hdimc hbc hdimp hbp hrowi hcols hdet hpay
        rw [hmm']
        refine ⟨ih1, ih2, ih3, ih4, ih5, ih6, ih7, ih8, ih9, ?_⟩
        intro x hx hxi
        rcases List.mem_cons.mp hx with hx1 | hx1
        · subst hx1
          have h0 : mget cm x i = 0 := by
            rcases Decidable.not_and_iff_or_not.mp hg with h | h
            · exact absurd (not_not.mp h) hxi
            · exact not_not.mp h
          exact ih9 x hxi h0
        · exact ih10 x hx1 hxi

end ns3

namespace ns3

/-! ## One column of the Gauss-Jordan elimination -/

theorem Multiply_zero_left (x : Nat) : GaloisField.Multiply 0 x = 0 := by
  rw [Multiply_eq]
  exact MP_zero_left x

theorem pivotFind_spec (cm : List (List Nat)) (i gs : Nat) :
    i ≤ pivotFind cm i gs ∧
    (pivotFind cm i gs < gs ∨ pivotFind cm i gs = i) ∧
    (pivotFind cm i gs ≠ i → mget cm (pivotFind cm i gs) i ≠ 0) ∧
    (mget cm (pivotFind cm i gs) i = 0 →
      ∀ j, i < j → j < gs → mget cm j i = 0) := by
  rw [pivotFind]
  cases hfind : (List.range' (i + 1) (gs - (i + 1))).find?
      (fun j => mget cm j i != 0) with
  | none =>
      refine ⟨Nat.le_refl i, Or.inr rfl, fun h => absurd rfl h, ?_⟩
      intro _ j hj1 hj2
      have := List.find?_eq_none.mp hfind j (by rw [List.mem_range'_1]; omega)
      simpa using this
  | some q =>
      have hq1 := List.find?_some hfind
      have hq2 := List.mem_of_find?_eq_some hfind
      rw [List.mem_range'_1] at hq2
      have hqz : mget cm q i ≠ 0 := by simpa using hq1
      exact ⟨show i ≤ q by omega, Or.inl (show q < gs by omega),
        fun _ => hqz, fun h0 => absurd h0 hqz⟩

/-- The outer invariant of DecodeGeneration after the first i columns:
well-formed matrices, an invertible coefficient copy whose first i columns
are identity columns, and payloads equal to the coefficient copy times a
fixed right factor. -/
def GJInv (gs ps i : Nat) (Smat : Matrix (Fin gs) (Fin ps) GFb)
    (cm pm : List (List Nat)) : Prop :=
  MatDims cm gs gs ∧ MatBytes cm ∧ MatDims pm gs ps ∧ MatBytes pm ∧
  (toMatG gs gs cm).det ≠ 0 ∧
  (∀ c, c < i → ∀ r, r < gs → mget cm r c = if r = c then 1 else 0) ∧
  toMatG gs ps pm = toMatG gs gs cm * Smat

theorem decodeStep_inv {gs ps i : Nat} {Smat : Matrix (Fin gs) (Fin ps) GFb}
    {cm pm : List (List Nat)} (hi : i < gs)
    (hinv : GJInv gs ps i Smat cm pm) :
    ∃ cm' pm', decodeStep gs ps (some (cm, pm)) i = some (cm', pm') ∧
      GJInv gs ps (i + 1) Smat cm' pm' := by
  obtain ⟨hdimc, hbc, hdimp, hbp, hdet, hcols, hpay⟩ := hinv
  have hclen : cm.length = gs := hdimc.1
  have hplen : pm.length = gs := hdimp.1
  set p := pivotFind cm i gs with hp
  have hspec := pivotFind_spec cm i gs
  rw [← hp] at hspec
  have hip : i ≤ p := hspec.1
  have hpgs : p < gs := by
    rcases hspec.2.1 with h | h
    · exact h
    · rw [h]
      exact hi
  have hp0 : mget cm p i ≠ 0 := by
    intro h0
    have hall := hspec.2.2.2 h0
    have hpi : p = i := by
      by_contra hne
      exact hspec.2.2.1 hne h0
    rw [hpi] at h0
    apply hdet
    apply det_zero_of_lower_zero _ i hi
    intro r c hr hc
    show byteOf (mget cm r.val c.val) = 0
    rcases Nat.lt_or_ge c.val i with hci | hci
    · rw [hcols c.val hci r.val r.isLt, if_neg (by omega), byteOf_zero]
    · have hcei : c.val = i := by omega
      have hz : mget cm r.val i = 0 := by
        rcases Nat.eq_or_lt_of_le hr with hri | hri
        · rw [← hri]
          exact h0
        · exact hall r.val hri r.isLt
      rw [hcei, hz, byteOf_zero]
  set cm1 := if p ≠ i then listSwap cm i p else cm with hcm1
  set pm1 := if p ≠ i then listSwap pm i p else pm with hpm1
  have hdimc1 : MatDims cm1 gs gs := by
    rw [hcm1]
    by_cases hpi : p ≠ i
    · rw [if_pos hpi]
      exact MatDims_listSwap hdimc (by omega) (by omega)
    · rw [if_neg hpi]
      exact hdimc
  have hbc1 : MatBytes cm1 := by
    rw [hcm1]
    by_cases hpi : p ≠ i
    · rw [if_pos hpi]
      exact MatBytes_listSwap hbc (by omega) (by omega)
    · rw [if_neg hpi]
      exact hbc
  have hdimp1 : MatDims pm1 gs ps := by
    rw [hpm1]
    by_cases hpi : p ≠ i
    · rw [if_pos hpi]
      exact MatDims_listSwap hdimp (by omega) (by omega)
    · rw [if_neg hpi]
      exact hdimp
  have hbp1 : MatBytes pm1 := by
    rw [hpm1]
    by_cases hpi : p ≠ i
    · rw [if_pos hpi]
      exact MatBytes_listSwap hbp (by omega) (by omega)
    · rw [if_neg hpi]
      exact hbp
  have hswapC : toMatG gs gs cm1 =
      (toMatG gs gs cm).submatrix (Equiv.swap ⟨i, hi⟩ ⟨p, hpgs⟩) id := by
    rw [hcm1]
    by_cases hpi : p ≠ i
    · rw [if_pos hpi]
      exact toMatG_listSwap_rect hclen ⟨i, hi⟩ ⟨p, hpgs⟩
    · push_neg at hpi
      rw [if_neg (not_not_intro hpi)]
      have hfe : (⟨i, hi⟩ : Fin gs) = ⟨p, hpgs⟩ := Fin.ext (show i = p by omega)
      rw [← hfe, Equiv.swap_self]
      rfl
  have hswapP : toMatG gs ps pm1 =
      (toMatG gs ps pm).submatrix (Equiv.swap ⟨i, hi⟩ ⟨p, hpgs⟩) id := by
    rw [hpm1]
    by_cases hpi : p ≠ i
    · rw [if_pos hpi]
      exact toMatG_listSwap_rect hplen ⟨i, hi⟩ ⟨p, hpgs⟩
    · push_neg at hpi
      rw [if_neg (not_not_intro hpi)]
      have hfe : (⟨i, hi⟩ : Fin gs) = ⟨p, hpgs⟩ := Fin.ext (show i = p by omega)
      rw [← hfe, Equiv.swap_self]
      rfl
  have hmget1 : ∀ r c, mget cm1 r c = mget cm (swapIdx i p r) c := by
    intro r c
    rw [hcm1]
    by_cases hpi : p ≠ i
    · rw [if_pos hpi]
      exact mget_listSwap (by omega) (by omega) r c
    · push_neg at hpi
      rw [if_neg (not_not_intro hpi), swapIdx, hpi]
      by_cases hr : r = i <;> simp [hr]
  have hdet1 : (toMatG gs gs cm1).det = (toMatG gs gs cm).det := by
    rw [hswapC, Matrix.det_permute]
    exact GFb.int_units_cast_mul _ _
  have hpay1 : toMatG gs ps pm1 = toMatG gs gs cm1 * Smat := by
    rw [hswapP, hpay, ← submatrix_mul_right, ← hswapC]
  have hcols1 : ∀ c, c < i → ∀ r, r < gs →
      mget cm1 r c = if r = c then 1 else 0 := by
    intro c hc r hr
    rw [hmget1 r c, swapIdx]
    by_cases h1 : r = i
    · rw [if_pos h1, hcols c hc p (by omega), if_neg (by omega), if_neg (by omega)]
    · rw [if_neg h1]
      by_cases h2 : r = p
      · rw [if_pos h2, hcols c hc i (by omega), if_neg (by omega), if_neg (by omega)]
      · rw [if_neg h2]
        exact hcols c hc r hr
  have hrow1i : ∀ c, mget cm1 i c = mget cm p c := by
    intro c
    rw [hmget1 i c, swapIdx, if_pos rfl]
  have hpiv1 : mget cm1 i i ≠ 0 := by
    rw [hrow1i i]
    exact hp0
  have hclen1 : cm1.length = gs := hdimc1.1
  have hplen1 : pm1.length = gs := hdimp1.1
  set pivInv := GaloisField.Inverse (mget cm1 i i) with hpinv
  set cm2 := cm1.set i ((List.range gs).map fun j =>
    GaloisField.Multiply (mget cm1 i j) pivInv) with hcm2
  set pm2 := pm1.set i ((List.range ps).map fun j =>
    GaloisField.Multiply (mget pm1 i j) pivInv) with hpm2
  have hpivb : mget cm1 i i < 256 := mget_bytes hbc1 i i
  have hpinvb : pivInv < 256 := by
    rw [hpinv]
    exact Inverse_lt _
  have hpinvnz : pivInv ≠ 0 := by
    rw [hpinv, Inverse_eq]
    exact IP_ne_zero hpiv1
  have hscaleC : toMatG gs gs cm2 = (toMatG gs gs cm1).updateRow ⟨i, hi⟩
      (byteOf pivInv • (toMatG gs gs cm1) ⟨i, hi⟩) := by
    rw [hcm2]
    exact toMatG_set_scale hdimc1 hbc1 hi hpinvb
  have hscaleP : toMatG gs ps pm2 = (toMatG gs ps pm1).updateRow ⟨i, hi⟩
      (byteOf pivInv • (toMatG gs ps pm1) ⟨i, hi⟩) := by
    rw [hpm2]
    exact toMatG_set_scale hdimp1 hbp1 hi hpinvb
  have hdimc2 : MatDims cm2 gs gs := by
    rw [hcm2]
    exact MatDims_set hdimc1 (by rw [List.length_map, List.length_range])
  have hbc2 : MatBytes cm2 := by
    rw [hcm2]
    apply MatBytes_set hbc1
    intro x hx
    obtain ⟨k, _, hk⟩ := List.mem_map.mp hx
    rw [← hk]
    exact Multiply_lt _ _
  have hdimp2 : MatDims pm2 gs ps := by
    rw [hpm2]
    exact MatDims_set hdimp1 (by rw [List.length_map, List.length_range])
  have hbp2 : MatBytes pm2 := by
    rw [hpm2]
    apply MatBytes_set hbp1
    intro x hx
    obtain ⟨k, _, hk⟩ := List.mem_map.mp hx
    rw [← hk]
    exact Multiply_lt _ _
  have hdet2 : (toMatG gs gs cm2).det ≠ 0 := by
    rw [hscaleC, Matrix.det_updateRow_smul, Matrix.updateRow_eq_self]
    apply mul_ne_zero
    · intro h0
      exact hpinvnz ((byteOf_eq_zero hpinvb).mp h0)
    · rw [hdet1]
      exact hdet
  have hpay2 : toMatG gs ps pm2 = toMatG gs gs cm2 * Smat := by
    rw [hscaleP, hpay1, ← updateRow_smul_mul, ← hscaleC]
  have hmget2 : ∀ c, c < gs →
      mget cm2 i c = GaloisField.Multiply (mget cm1 i c) pivInv := by
    intro c hc
    rw [hcm2, mget_set (by omega) _ i c, if_pos rfl, getD_map_range hc 0]
  have hmget2ne : ∀ r c, r ≠ i → mget cm2 r c = mget cm1 r c := by
    intro r c hr
    rw [hcm2, mget_set (by omega) _ r c, if_neg hr]
  have hii2 : mget cm2 i i = 1 := by
    rw [hmget2 i hi, hpinv, Multiply_eq, Inverse_eq]
    exact MP_inv hpiv1 hpivb
  have hic2 : ∀ c, c < i → mget cm2 i c = 0 := by
    intro c hc
    rw [hmget2 c (by omega)]
    have hz : mget cm1 i c = 0 := by
      rw [hcols1 c hc i hi, if_neg (by omega)]
    rw [hz, Multiply_zero_left]
  obtain ⟨e1, e2, e3, e4, e5, e6, e7, e8, e9, e10⟩ :=
    elimAll_spec gs ps i Smat cm2 hi hii2 hic2 (List.range gs)
      (fun j hj => List.mem_range.mp hj) cm2 pm2 hdimc2 hbc2 hdimp2 hbp2
      (fun c => rfl) (fun c hc r => rfl) rfl hpay2
  have heq : decodeStep gs ps (some (cm, pm)) i =
      some (elimAll gs ps i (List.range gs) (cm2, pm2)) := by
    simp only [decodeStep]
    rw [← hp, if_neg hp0, ← hcm1, ← hpm1, if_neg hpiv1, ← hpinv, ← hcm2, ← hpm2]
    rfl
  refine ⟨(elimAll gs ps i (List.range gs) (cm2, pm2)).1,
    (elimAll gs ps i (List.range gs) (cm2, pm2)).2, by rw [heq], ?_⟩
  refine ⟨e1, e2, e3, e4, ?_, ?_, e8⟩
  · rw [e7]
    exact hdet2
  · intro c hc r hr
    rcases Nat.lt_or_ge c i with hci | hci
    · rw [e6 c hci r]
      by_cases hri : r = i
      · rw [hri, hic2 c hci, if_neg (by omega)]
      · rw [hmget2ne r c hri]
        exact hcols1 c hci r hr
    · have hcei : c = i := by omega
      subst hcei
      by_cases hri : r = c
      · rw [hri, e5 c, hii2, if_pos rfl]
      · rw [e10 r (List.mem_range.mpr hr) hri, if_neg hri]

end ns3

namespace ns3

/-! ## The full elimination and the decoded payloads -/

theorem byteOf_one : byteOf 1 = 1 :=
  GFb.eq_of_val (by rw [byteOf_val (by norm_num), GFb.val_one])

theorem gaussElim_partial {gs ps : Nat} {Smat : Matrix (Fin gs) (Fin ps) GFb}
    {cm pm : List (List Nat)} (h0 : GJInv gs ps 0 Smat cm pm) :
    ∀ i, i ≤ gs → ∃ cm' pm',
      (List.range i).foldl (decodeStep gs ps) (some (cm, pm)) = some (cm', pm') ∧
      GJInv gs ps i Smat cm' pm' := by
  intro i
  induction i with
  | zero =>
      intro _
      exact ⟨cm, pm, rfl, h0⟩
  | succ i ih =>
      intro hi
      obtain ⟨cm', pm', heq, hinv⟩ := ih (by omega)
      obtain ⟨cm'', pm'', heq2, hinv2⟩ := decodeStep_inv (by omega) hinv
      refine ⟨cm'', pm'', ?_, hinv2⟩
      rw [List.range_succ, List.foldl_append, List.foldl_cons, List.foldl_nil,
        heq, heq2]

/-- On an invertible coefficient copy the Gauss-Jordan elimination never
aborts and its invariant reaches the last column. -/
theorem gaussElim_inv {gs ps : Nat} {Smat : Matrix (Fin gs) (Fin ps) GFb}
    {cm pm : List (List Nat)} (h0 : GJInv gs ps 0 Smat cm pm) :
    ∃ cm' pm', gaussElim cm pm gs ps = some (cm', pm') ∧
      GJInv gs ps gs Smat cm' pm' :=
  gaussElim_partial h0 gs (Nat.le_refl gs)

/-- At the end of the elimination the coefficient copy is the identity, so
the payload copy is exactly the right factor. -/
theorem GJInv_final {gs ps : Nat} {Smat : Matrix (Fin gs) (Fin ps) GFb}
    {cm pm : List (List Nat)} (h : GJInv gs ps gs Smat cm pm) :
    toMatG gs ps pm = Smat := by
  obtain ⟨hdimc, hbc, hdimp, hbp, hdet, hcols, hpay⟩ := h
  have hone : toMatG gs gs cm = 1 := by
    funext r c
    rw [Matrix.one_apply]
    show byteOf (mget cm r.val c.val) = _
    rw [hcols c.val c.isLt r.val r.isLt]
    by_cases hrc : r = c
    · rw [if_pos (show r.val = c.val from congrArg Fin.val hrc), if_pos hrc,
        byteOf_one]
    · rw [if_neg (fun he => hrc (Fin.ext he)), if_neg hrc, byteOf_zero]
  rw [hpay, hone, Matrix.one_mul]

theorem mget_eq_of_toMatG {gs ps : Nat} {pm S : List (List Nat)}
    (hbp : MatBytes pm) (hSb : MatBytes S)
    (h : toMatG gs ps pm = toMatG gs ps S) :
    ∀ i k, i < gs → k < ps → mget pm i k = mget S i k := by
  intro i k hi hk
  have h1 := congrFun (congrFun h ⟨i, hi⟩) ⟨k, hk⟩
  have h2 := congrArg GFb.val h1
  rwa [toMatG_val hbp, toMatG_val hSb] at h2

/-- Once all N rows are stored, DecodeGeneration recovers exactly the
source packets, in order, and sets the decoded flag. -/
theorem DecodeGeneration_decodes {N P : Nat} {A S : List (List Nat)}
    (hAdim : MatDims A N N) (hAb : MatBytes A)
    (hSdim : MatDims S N P) (hSb : MatBytes S)
    (hdet : (toMatG N N A).det ≠ 0) :
    DecodeGeneration (decState A S N P N) =
      { decState A S N P N with decodedPackets := S, decoded := true } := by
  have hPdim : MatDims (codedPayloadMatrix A S N P) N P := by
    constructor
    · rw [codedPayloadMatrix, List.length_map, List.length_range]
    · intro r hr
      obtain ⟨i, _, hi⟩ := List.mem_map.mp hr
      rw [← hi]
      exact (codedCombine_props _ _ _ _).1
  have hPb : MatBytes (codedPayloadMatrix A S N P) := by
    intro r hr
    obtain ⟨i, _, hi⟩ := List.mem_map.mp hr
    rw [← hi]
    apply mem_lt_of_getD
    intro c
    exact (codedCombine_props _ _ _ _).2 c
  have hpay0 : toMatG N P (codedPayloadMatrix A S N P) =
      toMatG N N A * toMatG N P S := toMatG_codedMatrix hAdim hAb hSdim hSb
  have h0 : GJInv N P 0 (toMatG N P S) A (codedPayloadMatrix A S N P) :=
    ⟨hAdim, hAb, hPdim, hPb, hdet,
      fun c hc => absurd hc (Nat.not_lt_zero c), hpay0⟩
  obtain ⟨cmF, pmF, hge, hinvF⟩ := gaussElim_inv h0
  have hpmS : toMatG N P pmF = toMatG N P S := GJInv_final hinvF
  have hpmb : MatBytes pmF := hinvF.2.2.2.1
  have hrank : CalculateRank (decState A S N P N) =
      (decState A S N P N).generationSize := by
    show (rankState N (fillMat A N N N) N).2 = N
    rw [fillMat_full hAdim.1]
    exact (rankState_full_iff hAdim hAb).mpr hdet
  have hge' : gaussElim (decState A S N P N).coefficients
      (decState A S N P N).codedPayloads (decState A S N P N).generationSize
      (decState A S N P N).packetSize = some (cmF, pmF) := by
    show gaussElim (fillMat A N N N)
      (fillMat (codedPayloadMatrix A S N P) N P N) N P = _
    rw [fillMat_full hAdim.1, fillMat_full hPdim.1]
    exact hge
  have hdp : (List.range N).map
      (fun i => (List.range P).map fun k => mget pmF i k) = S := by
    have hmval := mget_eq_of_toMatG hpmb hSb hpmS
    apply List.ext_getElem
    · rw [List.length_map, List.length_range, hSdim.1]
    · intro i h1 h2
      have hiN : i < N := by simpa using h1
      simp only [List.getElem_map, List.getElem_range]
      apply List.ext_getElem
      · rw [List.length_map, List.length_range]
        exact (hSdim.2 _ (List.getElem_mem h2)).symm
      · intro k h3 h4
        have hkP : k < P := by simpa using h3
        simp only [List.getElem_map, List.getElem_range]
        rw [hmval i k hiN hkP]
        show (S.getD i []).getD k 0 = _
        have hSi : S.getD i [] = S[i] := by
          rw [List.getD_eq_getElem?_getD, List.getElem?_eq_getElem h2,
            Option.getD_some]
        rw [hSi, List.getD_eq_getElem?_getD, List.getElem?_eq_getElem h4,
          Option.getD_some]
  have hdp' : (List.range (decState A S N P N).generationSize).map
      (fun i => (List.range (decState A S N P N).packetSize).map
        fun k => mget pmF i k) = S := hdp
  rw [DecodeGeneration, if_neg (by simp [decState]),
    if_neg (not_not_intro hrank), hge']
  show ({ decState A S N P N with
      decodedPackets := (List.range (decState A S N P N).generationSize).map
        fun i => (List.range (decState A S N P N).packetSize).map
          fun k => mget pmF i k,
      decoded := true } : NetworkCodingDecoder) = _
  rw [hdp']

end ns3

namespace ns3

/-! ## Claim C1: the deterministic round trip -/

/-- C1: for every generation of N source packets of exactly P bytes each
(the rows of S), and every N coded packets whose payloads are the GF(2^8)
linear combinations of those sources under the rows of a coefficient
matrix A that is invertible over GF(2^8) (certified by a left inverse B),
feeding those N coded packets of the current generation id into a fresh
decoder via ProcessCodedPacket makes CanDecode return true, and
GetDecodedPackets returns exactly N packets whose payloads are the N
source payloads - in fact in their original order, which is stronger than
the claimed set equality. -/
theorem C1_round_trip {N P : Nat} (A S : List (List Nat))
    (B : Matrix (Fin N) (Fin N) GFb) (hN : 0 < N)
    (hAdim : MatDims A N N) (hAb : MatBytes A)
    (hSdim : MatDims S N P) (hSb : MatBytes S)
    (hB : B * toMatG N N A = 1) :
    (CanDecode (feedAll (mkDecoder N P)
        ((List.range N).map (codedFrom A S N P)))).1 = true ∧
    (GetDecodedPackets (feedAll (mkDecoder N P)
        ((List.range N).map (codedFrom A S N P)))).1 = S ∧
    (GetDecodedPackets (feedAll (mkDecoder N P)
        ((List.range N).map (codedFrom A S N P)))).1.length = N := by
  have hdet : (toMatG N N A).det ≠ 0 := det_ne_zero_of_left_inv hB
  have hfeed : feedAll (mkDecoder N P) ((List.range N).map (codedFrom A S N P)) =
      DecodeGeneration (decState A S N P N) := feedAll_full hN hAdim hAb hdet
  have hdec := DecodeGeneration_decodes hAdim hAb hSdim hSb hdet
  rw [hfeed, hdec]
  have hrk : CalculateRank ({ decState A S N P N with
      decodedPackets := S, decoded := true } : NetworkCodingDecoder) = N := by
    show (rankState N (fillMat A N N N) N).2 = N
    rw [fillMat_full hAdim.1]
    exact (rankState_full_iff hAdim hAb).mpr hdet
  refine ⟨?_, ?_, ?_⟩
  · rw [CanDecode]
    show CanDecodeB ({ decState A S N P N with
      decodedPackets := S, decoded := true } : NetworkCodingDecoder) = true
    rw [CanDecodeB]
    show (CalculateRank ({ decState A S N P N with
      decodedPackets := S, decoded := true } : NetworkCodingDecoder) == N) = true
    rw [hrk]
    simp
  · rw [GetDecodedPackets, if_neg (by simp)]
  · rw [GetDecodedPackets, if_neg (by simp)]
    show S.length = N
    exact hSdim.1

/-- Witness for C1: two sources of two bytes each, coded under the
self-inverse coefficient matrix [[1,1],[0,1]]. -/
theorem C1_round_trip_witness :
    (CanDecode (feedAll (mkDecoder 2 2)
        ((List.range 2).map (codedFrom [[1,1],[0,1]] [[1,2],[3,4]] 2 2)))).1 =
      true ∧
    (GetDecodedPackets (feedAll (mkDecoder 2 2)
        ((List.range 2).map (codedFrom [[1,1],[0,1]] [[1,2],[3,4]] 2 2)))).1 =
      [[1,2],[3,4]] ∧
    (GetDecodedPackets (feedAll (mkDecoder 2 2)
        ((List.range 2).map
          (codedFrom [[1,1],[0,1]] [[1,2],[3,4]] 2 2)))).1.length = 2 :=
  C1_round_trip [[1,1],[0,1]] [[1,2],[3,4]] (toMatG 2 2 [[1,1],[0,1]])
    (by norm_num) (by unfold MatDims; decide) (by unfold MatBytes; decide)
    (by unfold MatDims; decide) (by unfold MatBytes; decide) (by decide)

end ns3
